import Mathlib

/-!
A shallow embedding of the piece-table text buffer from src/lib.rs and its
support modules (src/str_utils.rs, src/buffer.rs, src/piece.rs, src/line.rs).

Strings are modelled as lists of bytes (`Str`).  Char counting and char→byte
translation follow the semantics of the str_indices crate used by the source
(a char starts at every byte that is not a UTF-8 continuation byte).  Machine
integers are `Nat`; Rust `usize` subtraction only occurs where it cannot
underflow in the source, so truncated `Nat` subtraction coincides.  Panics are
modelled by `Except`: an `insert`/`remove` call returns `.error (msg, t)`
where `t` is the table state observable after the unwinding panic.

The model is compiled with the `lines` feature on, the `unicode-line-breaks`
feature off (base mode), and the `contiguous-inserts` feature modelled by the
boolean field `ci` (a compile-time flag becomes a construction parameter).
-/

/-- A byte string: the model of Rust `&str` / `String` contents. -/
abbrev Str := List Nat

/-- A byte starts a new char iff it is not a UTF-8 continuation byte
(continuation bytes are 0x80..=0xBF).  This is the boundary notion used by
the str_indices crate backing count_chars / char_to_byte. -/
def isCharBoundary (b : Nat) : Bool := b < 0x80 || 0xC0 ≤ b

/-- Model of str_utils::count_chars (str_indices::chars::count): the number
of char boundaries in the byte string. -/
def count_chars (s : Str) : Nat := (s.filter isCharBoundary).length

/-- Model of str_utils::char_to_byte (str_indices::chars::to_byte_idx): the
byte index of the n-th char boundary, or the length when there are fewer
than n+1 boundaries. -/
def char_to_byte : Str → Nat → Nat
  | [], _ => 0
  | b :: rest, n =>
    if isCharBoundary b then
      match n with
      | 0 => 0
      | m + 1 => 1 + char_to_byte rest m
    else
      1 + char_to_byte rest n

/-- True iff the byte string is empty or begins with a char boundary; every
valid UTF-8 string satisfies this. -/
def boundaryStart : Str → Bool
  | [] => true
  | b :: _ => isCharBoundary b

/-- line::Break with the unicode-line-breaks feature off. -/
inductive Break where
  | lf
  | crlf
  deriving DecidableEq, Repr, Inhabited

/-- Break::len_bytes (base mode). -/
def Break.len_bytes : Break → Nat
  | .lf => 1
  | .crlf => 2

/-- Break.len_chars (base mode). -/
def Break.len_chars : Break → Nat
  | .lf => 1
  | .crlf => 2

/-- Model of str_utils::line_breaks in base mode (unicode-line-breaks off).
It returns the list of `(base_idx + offset, kind)` entries that the source
pushes onto `v`, together with the returned counter.  The source increments
the counter at the top of the loop and decrements it only in the catch-all
arm, so a 0x0D byte not followed by 0x0A leaves the counter incremented even
though nothing is pushed. -/
def line_breaks : Str → Nat → List (Nat × Break) × Nat
  | [], _ => ([], 0)
  | 0x0A :: rest, idx =>
    let r := line_breaks rest (idx + 1)
    ((idx, Break.lf) :: r.1, r.2 + 1)
  | 0x0D :: 0x0A :: rest, idx =>
    let r := line_breaks rest (idx + 2)
    ((idx, Break.crlf) :: r.1, r.2 + 1)
  | 0x0D :: rest, idx =>
    let r := line_breaks rest (idx + 1)
    (r.1, r.2 + 1)
  | _ :: rest, idx => line_breaks rest (idx + 1)

/-- buffer::BufferType. -/
inductive BufferType where
  | original
  | add
  deriving DecidableEq, Repr, Inhabited

/-- piece::Piece (lines feature on). -/
structure Piece where
  buffer : BufferType
  start : Nat
  first_line_break : Option Nat
  len_bytes : Nat
  len_chars : Nat
  deriving DecidableEq, Repr, Inhabited

/-- buffer::Buffer: a byte store plus its line-break registry. -/
structure Buffer where
  content : Str
  line_breaks : List (Nat × Break)
  deriving DecidableEq, Repr, Inhabited

/-- buffer::Buffers. -/
structure Buffers where
  original : Buffer
  add : Buffer
  deriving DecidableEq, Repr, Inhabited

/-- The Index impl on Buffers: the content bytes of the selected buffer. -/
def Buffers.get (b : Buffers) : BufferType → Str
  | .original => b.original.content
  | .add => b.add.content

/-- Buffers::line_breaks. -/
def Buffers.lineBreaks (b : Buffers) : BufferType → List (Nat × Break)
  | .original => b.original.line_breaks
  | .add => b.add.line_breaks

/-- Buffers::from_initial. -/
def Buffers.from_initial (initial : Str) : Buffers :=
  { original := { content := initial, line_breaks := (line_breaks initial 0).1 }
    add := { content := [], line_breaks := [] } }

/-- PieceTable (lines feature on; `ci` models the contiguous-inserts feature
flag; `last_insert` is always `none` when `ci = false`). -/
structure PieceTable where
  pieces : List Piece
  buffers : Buffers
  len_bytes : Nat
  len_chars : Nat
  len_lines : Nat
  ci : Bool
  last_insert : Option (Nat × Nat)
  deriving DecidableEq, Repr, Inhabited

/-- Rust slice `s[a..b]` on byte strings (total; all source uses are
in bounds with `a ≤ b`). -/
def sliceRange (s : Str) (a b : Nat) : Str := (s.drop a).take (b - a)

/-- The bytes of a piece: `buffers[piece.buffer][piece.byte_range()]`. -/
def pieceText (bufs : Buffers) (p : Piece) : Str :=
  sliceRange (bufs.get p.buffer) p.start (p.start + p.len_bytes)

/-- PieceTable::text: concatenation of every piece's slice in order. -/
def PieceTable.text (t : PieceTable) : Str :=
  (t.pieces.map (pieceText t.buffers)).flatten

/-- PieceTable::iter: the finite sequence of borrowed chunks, one per piece. -/
def PieceTable.iter (t : PieceTable) : List Str :=
  t.pieces.map (pieceText t.buffers)

/-- PieceTable::new. -/
def PieceTable.new (ci : Bool) (initial : Str) : PieceTable :=
  let buffers := Buffers.from_initial initial
  let initial_piece : Piece :=
    { buffer := BufferType.original
      start := 0
      len_bytes := initial.length
      len_chars := count_chars initial
      first_line_break :=
        if buffers.original.line_breaks.isEmpty then none else some 0 }
  { len_bytes := initial.length
    len_chars := count_chars initial
    len_lines := buffers.original.line_breaks.length + 1
    ci := ci
    last_insert := none
    buffers := buffers
    pieces := [initial_piece] }

/-- The message of the `assert!` in PieceTable::piece_at_char and of the
`# Panics` contract of insert. -/
def indexOutOfBoundsMsg : String := "index out of bounds"

/-- The message of the `unreachable!` at the end of PieceTable::piece_at_char. -/
def unreachableMsg : String := "internal error: entered unreachable code"

/-- The message of the CRLF `assert!` in split_piece_and_insert (the typo
is the source's). -/
def crlfMsg : String := "inserting inside a CRLF sequece is invalid"

/-- The loop of PieceTable::piece_at_char: walk the pieces accumulating
`len_chars`; the first piece whose running total reaches `char_idx` is
chosen.  Falling off the end is the source's `unreachable!`. -/
def piece_at_char_go (char_idx : Nat) : Nat → Nat → List Piece →
    Except String (Nat × Nat)
  | _, _, [] => .error unreachableMsg
  | i, offset, p :: rest =>
    if char_idx ≤ offset + p.len_chars then
      .ok (i, char_idx - offset)
    else
      piece_at_char_go char_idx (i + 1) (offset + p.len_chars) rest

/-- PieceTable::piece_at_char.  The `assert!(char_idx <= self.len_chars)`
panic and the trailing `unreachable!` are the two error outcomes. -/
def PieceTable.piece_at_char (t : PieceTable) (char_idx : Nat) :
    Except String (Nat × Nat) :=
  if char_idx ≤ t.len_chars then
    piece_at_char_go char_idx 0 0 t.pieces
  else
    .error indexOutOfBoundsMsg

/-- PieceTable::insert_piece: scan the text's line breaks into the add
registry, append the text to the add buffer, and insert the new piece. -/
def PieceTable.insert_piece (t : PieceTable) (index : Nat) (text : Str) :
    PieceTable :=
  let first_lb := t.buffers.add.line_breaks.length
  let scanned := line_breaks text t.buffers.add.content.length
  let new_line_breaks := t.buffers.add.line_breaks ++ scanned.1
  let piece : Piece :=
    { buffer := BufferType.add
      start := t.buffers.add.content.length
      first_line_break :=
        if first_lb < new_line_breaks.length then some first_lb else none
      len_chars := count_chars text
      len_bytes := text.length }
  { t with
    len_lines := t.len_lines + scanned.2
    buffers := { t.buffers with
      add := { content := t.buffers.add.content ++ text
               line_breaks := new_line_breaks } }
    pieces := t.pieces.insertIdx index piece }

/-- PieceTable::split_piece_and_insert.  The CRLF assert reads the piece's
text at the char index (not at the byte index), exactly as the source does;
the after piece's `first_line_break` receives the found entry's byte offset
(`.map(|(idx, _ty)| idx)` on the registry entry), as the source does. -/
def PieceTable.split_piece_and_insert (t : PieceTable) (piece_idx char_idx : Nat)
    (text : Str) : Except String PieceTable :=
  match t.pieces[piece_idx]? with
  | none => .error indexOutOfBoundsMsg
  | some piece =>
    let piece_text := (t.buffers.get piece.buffer).drop piece.start
    if piece_text.getD (char_idx - 1) 0 = 0x0D ∧ piece_text.getD char_idx 0 = 0x0A then
      .error crlfMsg
    else
      let byte_idx := char_to_byte piece_text char_idx
      let after_start := piece.start + byte_idx
      let after_end := after_start + piece.len_bytes - byte_idx
      let found := piece.first_line_break.bind fun flb =>
        ((t.buffers.lineBreaks piece.buffer).drop flb).find? fun e =>
          decide (after_start ≤ e.1 ∧ e.1 < after_end)
      let after : Piece :=
        { buffer := piece.buffer
          start := after_start
          first_line_break := found.map (·.1)
          len_bytes := piece.len_bytes - byte_idx
          len_chars := piece.len_chars - char_idx }
      let before : Piece := { piece with len_bytes := byte_idx, len_chars := char_idx }
      let t1 := { t with pieces := t.pieces.set piece_idx before }
      let t2 := t1.insert_piece (piece_idx + 1) text
      .ok { t2 with pieces := t2.pieces.insertIdx (piece_idx + 2) after }

/-- PieceTable::extend_piece (contiguous-inserts fast path): scan the text
with the piece's byte-range end as base, extend the piece's lengths, append
the text to the add buffer.  `first_line_break` is left untouched, as in the
source. -/
def PieceTable.extend_piece (t : PieceTable) (text : Str)
    (text_len_chars piece_idx : Nat) : PieceTable :=
  match t.pieces[piece_idx]? with
  | none => t
  | some piece =>
    let scanned := line_breaks text (piece.start + piece.len_bytes)
    { t with
      len_lines := t.len_lines + scanned.2
      buffers := { t.buffers with
        add := { content := t.buffers.add.content ++ text
                 line_breaks := t.buffers.add.line_breaks ++ scanned.1 } }
      pieces := t.pieces.set piece_idx
        { piece with
          len_bytes := piece.len_bytes + text.length
          len_chars := piece.len_chars + text_len_chars } }

/-- The slow path of PieceTable::insert, shared by every feature
configuration: locate the piece, choose prepend / append / split, and (with
contiguous-inserts on) record `last_insert`.  The table argument already has
its aggregates bumped, as in the source.  A panic returns the state observed
after unwinding. -/
def PieceTable.insertSlow (t : PieceTable) (char_idx : Nat) (text : Str)
    (len_chars : Nat) : Except (String × PieceTable) PieceTable :=
  match t.piece_at_char char_idx with
  | .error msg => .error (msg, t)
  | .ok (piece_idx, relative_char_idx) =>
    let res : Except String PieceTable :=
      if relative_char_idx = 0 then
        .ok (t.insert_piece piece_idx text)
      else if relative_char_idx = ((t.pieces.getD piece_idx default).len_chars) then
        .ok (t.insert_piece (piece_idx + 1) text)
      else
        t.split_piece_and_insert piece_idx relative_char_idx text
    match res with
    | .error msg => .error (msg, t)
    | .ok t2 =>
      if t2.ci then
        let new_piece_idx :=
          if relative_char_idx = 0 then piece_idx else piece_idx + 1
        .ok { t2 with last_insert := some (char_idx + len_chars, new_piece_idx) }
      else
        .ok t2

/-- PieceTable::insert.  The aggregates are incremented before anything else,
as in the source; with contiguous-inserts on, a matching `last_insert` takes
the extend_piece fast path. -/
def PieceTable.insert (t : PieceTable) (char_idx : Nat) (text : Str) :
    Except (String × PieceTable) PieceTable :=
  let len_chars := count_chars text
  let t1 := { t with
    len_chars := t.len_chars + len_chars
    len_bytes := t.len_bytes + text.length }
  if t.ci then
    match t1.last_insert with
    | some (i, piece_idx) =>
      if i = char_idx then
        .ok ((({ t1 with last_insert := some (i + len_chars, piece_idx) } :
          PieceTable)).extend_piece text len_chars piece_idx)
      else
        t1.insertSlow char_idx text len_chars
    | none => t1.insertSlow char_idx text len_chars
  else
    t1.insertSlow char_idx text len_chars

/-- std::ops::Bound, the two endpoints of a Rust range argument. -/
inductive Bound where
  | included (i : Nat)
  | excluded (i : Nat)
  | unbounded
  deriving DecidableEq, Repr, Inhabited

/-- A value implementing RangeBounds: a pair of bounds. -/
structure RangeB where
  sb : Bound
  eb : Bound
  deriving DecidableEq, Repr, Inhabited

/-- PieceTable::simplify_range_bounds: convert to a half-open pair. -/
def PieceTable.simplify_range_bounds (t : PieceTable) (r : RangeB) : Nat × Nat :=
  let s := match r.sb with
    | .included i => i
    | .excluded i => i + 1
    | .unbounded => 0
  let e := match r.eb with
    | .included i => i + 1
    | .excluded i => i
    | .unbounded => t.len_chars
  (s, e)

/-- PieceTable::count_piece_line_breaks. -/
def PieceTable.count_piece_line_breaks (t : PieceTable) (piece_idx : Nat) : Nat :=
  match t.pieces[piece_idx]? with
  | none => 0
  | some piece =>
    match piece.first_line_break with
    | some first_lb =>
      (((t.buffers.lineBreaks piece.buffer).drop first_lb).takeWhile fun e =>
        decide (piece.start ≤ e.1 ∧ e.1 < piece.start + piece.len_bytes)).length
    | none => 0

/-- PieceTable::remove_piece: drop the piece and update all three aggregates
(including len_lines). -/
def PieceTable.remove_piece (t : PieceTable) (piece_idx : Nat) : PieceTable :=
  match t.pieces[piece_idx]? with
  | none => t
  | some piece =>
    let lbs := t.count_piece_line_breaks piece_idx
    { t with
      len_bytes := t.len_bytes - piece.len_bytes
      len_chars := t.len_chars - piece.len_chars
      len_lines := t.len_lines - lbs
      pieces := t.pieces.eraseIdx piece_idx }

/-- PieceTable::trim_piece_end.  The source's
`piece.first_line_break.as_ref().take_if(..)` acts on a temporary Option and
leaves the field unchanged; the model therefore does not touch it. -/
def PieceTable.trim_piece_end (t : PieceTable) (piece_idx start_char_idx : Nat) :
    PieceTable :=
  match t.pieces[piece_idx]? with
  | none => t
  | some piece =>
    let text := sliceRange (t.buffers.get piece.buffer) piece.start
      (piece.start + piece.len_bytes)
    if start_char_idx = 0 then
      t.remove_piece piece_idx
    else if start_char_idx < piece.len_chars then
      let byte_idx := char_to_byte text start_char_idx
      { t with
        len_chars := t.len_chars - (piece.len_chars - start_char_idx)
        len_bytes := t.len_bytes - (piece.len_bytes - byte_idx)
        pieces := t.pieces.set piece_idx
          { piece with len_bytes := byte_idx, len_chars := start_char_idx } }
    else
      t

/-- PieceTable::trim_piece_start.  The recomputed `first_line_break` stores
the found registry entry's byte offset (the source's `.0`), as the code does. -/
def PieceTable.trim_piece_start (t : PieceTable) (piece_idx end_char_idx : Nat) :
    PieceTable :=
  match t.pieces[piece_idx]? with
  | none => t
  | some piece =>
    let text := sliceRange (t.buffers.get piece.buffer) piece.start
      (piece.start + piece.len_bytes)
    if end_char_idx = piece.len_chars then
      t.remove_piece piece_idx
    else if 0 < end_char_idx then
      let byte_idx := char_to_byte text end_char_idx
      let piece' : Piece := { piece with
        start := piece.start + byte_idx
        len_bytes := piece.len_bytes - byte_idx
        len_chars := piece.len_chars - end_char_idx }
      let flb := piece.first_line_break.bind fun flb =>
        (((t.buffers.lineBreaks piece.buffer).drop flb).find? fun e =>
          decide (piece'.start ≤ e.1 ∧ e.1 < piece'.start + piece'.len_bytes)).map (·.1)
      { t with
        len_chars := t.len_chars - end_char_idx
        len_bytes := t.len_bytes - byte_idx
        pieces := t.pieces.set piece_idx { piece' with first_line_break := flb } }
    else
      t

/-- PieceTable::remove_within_piece.  The whole-piece branch forgets
len_lines; the split branch overwrites the piece with exactly the removed
byte range and computes the aggregate deltas from the already-mutated piece
(so they are zero), faithfully to the source. -/
def PieceTable.remove_within_piece (t : PieceTable)
    (piece_idx start_char_idx end_char_idx : Nat) : PieceTable :=
  match t.pieces[piece_idx]? with
  | none => t
  | some piece =>
    let text := sliceRange (t.buffers.get piece.buffer) piece.start
      (piece.start + piece.len_bytes)
    if start_char_idx = 0 ∧ end_char_idx = piece.len_chars then
      { t with
        len_bytes := t.len_bytes - piece.len_bytes
        len_chars := t.len_chars - piece.len_chars
        pieces := t.pieces.eraseIdx piece_idx }
    else
      let start_offset := char_to_byte text start_char_idx
      let end_offset := char_to_byte text end_char_idx
      let new_len_bytes := end_offset - start_offset
      let new_len_chars := end_char_idx - start_char_idx
      let piece' : Piece := { piece with
        start := piece.start + start_offset
        len_bytes := new_len_bytes
        len_chars := new_len_chars }
      let removed_bytes := piece'.len_bytes - new_len_bytes
      let removed_chars := piece'.len_chars - new_len_chars
      { t with
        pieces := t.pieces.set piece_idx piece'
        len_bytes := t.len_bytes - removed_bytes
        len_chars := t.len_chars - removed_chars }

/-- PieceTable::remove_pieces: drain the index range, decrementing byte and
char aggregates (len_lines is not touched, as in the source). -/
def PieceTable.remove_pieces (t : PieceTable) (rstart rend : Nat) : PieceTable :=
  let drained := (t.pieces.drop rstart).take (rend - rstart)
  { t with
    pieces := t.pieces.take rstart ++ t.pieces.drop rend
    len_chars := t.len_chars - (drained.map Piece.len_chars).sum
    len_bytes := t.len_bytes - (drained.map Piece.len_bytes).sum }

/-- PieceTable::remove.  Simplify the bounds, return unchanged on an empty
range, clear a `last_insert` at or after the start, then split into the
same-piece and spanning cases.  A panic in piece_at_char returns the state
observed after unwinding. -/
def PieceTable.remove (t : PieceTable) (r : RangeB) :
    Except (String × PieceTable) PieceTable :=
  let se := t.simplify_range_bounds r
  let startIdx := se.1
  let endIdx := se.2
  if startIdx ≥ endIdx then
    .ok t
  else
    let t := match t.last_insert with
      | some (i, _piece) => if i ≥ startIdx then { t with last_insert := none } else t
      | none => t
    match t.piece_at_char startIdx with
    | .error msg => .error (msg, t)
    | .ok (start_piece_idx, start_char_idx) =>
      match t.piece_at_char endIdx with
      | .error msg => .error (msg, t)
      | .ok (end_piece_idx, end_char_idx) =>
        if start_piece_idx = end_piece_idx then
          .ok (t.remove_within_piece start_piece_idx start_char_idx end_char_idx)
        else
          let t := t.trim_piece_start end_piece_idx end_char_idx
          let t := t.remove_pieces (start_piece_idx + 1) end_piece_idx
          .ok (t.trim_piece_end start_piece_idx start_char_idx)

/-- Run a contiguous sequence of inserts: each insert's position is the
previous insert's end position (its position plus the char count of its
text). -/
def runInserts (t : PieceTable) (i : Nat) : List Str →
    Except (String × PieceTable) PieceTable
  | [] => .ok t
  | s :: rest =>
    match t.insert i s with
    | .ok t' => runInserts t' (i + count_chars s) rest
    | .error e => .error e

/-- Total char count of a list of pieces (the sum of their cached lengths). -/
def sumCharsOf (l : List Piece) : Nat := (l.map Piece.len_chars).sum

/-- The buffers after appending `text` to the add buffer and its scanned
line breaks to the add registry (the common effect of insert_piece and
extend_piece on the buffer pair). -/
def appendAdd (bufs : Buffers) (text : Str) : Buffers :=
  { bufs with add :=
    { content := bufs.add.content ++ text
      line_breaks := bufs.add.line_breaks ++ (line_breaks text bufs.add.content.length).1 } }

/-- The piece that insert_piece constructs for `text`. -/
def newAddPiece (bufs : Buffers) (text : Str) : Piece :=
  { buffer := BufferType.add
    start := bufs.add.content.length
    first_line_break :=
      if bufs.add.line_breaks.length <
          (bufs.add.line_breaks ++ (line_breaks text bufs.add.content.length).1).length then
        some bufs.add.line_breaks.length
      else none
    len_chars := count_chars text
    len_bytes := text.length }

/-- The byte offset at which split_piece_and_insert splits a piece. -/
def splitByteIdx (bufs : Buffers) (p : Piece) (rci : Nat) : Nat :=
  char_to_byte ((bufs.get p.buffer).drop p.start) rci

/-- The before piece produced by split_piece_and_insert. -/
def beforePiece (bufs : Buffers) (p : Piece) (rci : Nat) : Piece :=
  { p with len_bytes := splitByteIdx bufs p rci, len_chars := rci }

/-- The after piece produced by split_piece_and_insert. -/
def afterPiece (bufs : Buffers) (p : Piece) (rci : Nat) : Piece :=
  let byte_idx := splitByteIdx bufs p rci
  let after_start := p.start + byte_idx
  let after_end := after_start + p.len_bytes - byte_idx
  { buffer := p.buffer
    start := after_start
    first_line_break :=
      (p.first_line_break.bind fun flb =>
        ((bufs.lineBreaks p.buffer).drop flb).find? fun e =>
          decide (after_start ≤ e.1 ∧ e.1 < after_end)).map (·.1)
    len_bytes := p.len_bytes - byte_idx
    len_chars := p.len_chars - rci }

/-- The structural well-formedness of a table that the verification uses:
cached char counts are consistent, pieces are in bounds, and every piece's
byte range starts on a char boundary. -/
structure Valid (t : PieceTable) : Prop where
  agg : sumCharsOf t.pieces = t.len_chars
  inb : ∀ p ∈ t.pieces, p.start + p.len_bytes ≤ (t.buffers.get p.buffer).length
  chars : ∀ p ∈ t.pieces, count_chars (pieceText t.buffers p) = p.len_chars
  bnd : ∀ p ∈ t.pieces, boundaryStart (pieceText t.buffers p) = true

/-- The simulation invariant between a slow-path run `S` (contiguous-inserts
off) and a fast-path run `F` (contiguous-inserts on) of the same contiguous
insert sequence: after at least one insert, `F`'s recorded piece `k` ends at
the add buffer's end, the char prefix through it is the next insert
position `e`, `S` has a piece boundary at `e`, the buffers and texts agree,
and `S` carries `m` more pieces than `F`. -/
structure SimInv (e k m : Nat) (S F : PieceTable) : Prop where
  vS : Valid S
  vF : Valid F
  ciS : S.ci = false
  ciF : F.ci = true
  liS : S.last_insert = none
  liF : F.last_insert = some (e, k)
  bufs : S.buffers = F.buffers
  texteq : S.text = F.text
  fdec : ∃ f1 pk f2, F.pieces = f1 ++ pk :: f2 ∧ k = f1.length ∧
    pk.buffer = BufferType.add ∧
    pk.start + pk.len_bytes = F.buffers.add.content.length ∧
    sumCharsOf (f1 ++ [pk]) = e
  sdec : ∃ s1 s2, S.pieces = s1 ++ s2 ∧ sumCharsOf s1 = e
  cnt : S.pieces.length = F.pieces.length + m

theorem count_chars_nil : count_chars [] = 0 := rfl

theorem count_chars_cons (b : Nat) (l : Str) :
    count_chars (b :: l) = (if isCharBoundary b then 1 else 0) + count_chars l := by
  by_cases h : isCharBoundary b <;> simp [count_chars, List.filter_cons, h] <;> omega

theorem count_chars_append (a b : Str) :
    count_chars (a ++ b) = count_chars a + count_chars b := by
  simp [count_chars, List.filter_append]

theorem char_to_byte_le_length (l : Str) (n : Nat) : char_to_byte l n ≤ l.length := by
  induction l generalizing n with
  | nil => simp [char_to_byte]
  | cons b rest ih =>
    by_cases hb : isCharBoundary b
    · cases n with
      | zero => simp [char_to_byte, hb]
      | succ m =>
        have := ih m
        simp [char_to_byte, hb]
        omega
    · have := ih n
      simp [char_to_byte, hb]
      omega

theorem char_to_byte_of_count_le (l : Str) (n : Nat) (h : count_chars l ≤ n) :
    char_to_byte l n = l.length := by
  induction l generalizing n with
  | nil => simp [char_to_byte]
  | cons b rest ih =>
    rw [count_chars_cons] at h
    by_cases hb : isCharBoundary b
    · simp only [hb, if_true] at h
      cases n with
      | zero => omega
      | succ m =>
        have := ih m (by omega)
        simp [char_to_byte, hb]
        omega
    · simp [hb] at h
      have := ih n (by omega)
      simp [char_to_byte, hb]
      omega

theorem char_to_byte_append (l l2 : Str) (n : Nat) (h : n < count_chars l) :
    char_to_byte (l ++ l2) n = char_to_byte l n := by
  induction l generalizing n with
  | nil => simp [count_chars] at h
  | cons b rest ih =>
    rw [count_chars_cons] at h
    by_cases hb : isCharBoundary b
    · cases n with
      | zero => simp [char_to_byte, hb]
      | succ m =>
        simp only [hb, if_true] at h
        have := ih m (by omega)
        simp [char_to_byte, hb]
        omega
    · simp [hb] at h
      have := ih n (by omega)
      simp [char_to_byte, hb]
      omega

theorem char_to_byte_lt_length (l : Str) (n : Nat) (h : n < count_chars l) :
    char_to_byte l n < l.length := by
  induction l generalizing n with
  | nil => simp [count_chars] at h
  | cons b rest ih =>
    rw [count_chars_cons] at h
    by_cases hb : isCharBoundary b
    · cases n with
      | zero => simp [char_to_byte, hb]
      | succ m =>
        simp only [hb, if_true] at h
        have := ih m (by omega)
        simp [char_to_byte, hb]
        omega
    · simp [hb] at h
      have := ih n (by omega)
      simp [char_to_byte, hb]
      omega

theorem count_chars_take_char_to_byte (l : Str) (n : Nat) (h : n ≤ count_chars l) :
    count_chars (l.take (char_to_byte l n)) = n := by
  induction l generalizing n with
  | nil =>
    simp only [count_chars, List.filter_nil, List.length_nil] at h
    simp [char_to_byte, count_chars]
    omega
  | cons b rest ih =>
    rw [count_chars_cons] at h
    by_cases hb : isCharBoundary b
    · cases n with
      | zero => simp [char_to_byte, hb, count_chars]
      | succ m =>
        simp only [hb, if_true] at h
        have hih := ih m (by omega)
        show count_chars (List.take (char_to_byte (b :: rest) (m + 1)) (b :: rest)) = m + 1
        have hstep : char_to_byte (b :: rest) (m + 1) = char_to_byte rest m + 1 := by
          simp [char_to_byte, hb]
          omega
        rw [hstep, List.take_succ_cons, count_chars_cons, hih]
        simp [hb]
        omega
    · simp [hb] at h
      have hih := ih n (by omega)
      have hstep : char_to_byte (b :: rest) n = char_to_byte rest n + 1 := by
        simp [char_to_byte, hb]
        omega
      rw [hstep, List.take_succ_cons, count_chars_cons, hih]
      simp [hb]

theorem boundaryStart_drop_char_to_byte (l : Str) (n : Nat) :
    boundaryStart (l.drop (char_to_byte l n)) = true := by
  induction l generalizing n with
  | nil => simp [char_to_byte, boundaryStart]
  | cons b rest ih =>
    by_cases hb : isCharBoundary b
    · cases n with
      | zero => simpa [char_to_byte, hb, boundaryStart] using hb
      | succ m =>
        have hstep : char_to_byte (b :: rest) (m + 1) = char_to_byte rest m + 1 := by
          simp [char_to_byte, hb]
          omega
        rw [hstep, List.drop_succ_cons]
        exact ih m
    · have hstep : char_to_byte (b :: rest) n = char_to_byte rest n + 1 := by
        simp [char_to_byte, hb]
        omega
      rw [hstep, List.drop_succ_cons]
      exact ih n

theorem boundaryStart_append (a b : Str) (ha : boundaryStart a = true)
    (hb : boundaryStart b = true) : boundaryStart (a ++ b) = true := by
  cases a with
  | nil => simpa using hb
  | cons x xs => simpa [boundaryStart] using ha

theorem boundaryStart_take (l : Str) (n : Nat) (h : boundaryStart l = true) :
    boundaryStart (l.take n) = true := by
  cases l with
  | nil => simp [boundaryStart]
  | cons x xs =>
    cases n with
    | zero => simp [boundaryStart]
    | succ m => simpa [boundaryStart] using h

theorem count_chars_pos (l : Str) (hne : l ≠ []) (h : boundaryStart l = true) :
    0 < count_chars l := by
  cases l with
  | nil => exact absurd rfl hne
  | cons b xs =>
    rw [count_chars_cons]
    simp only [boundaryStart] at h
    simp [h]

theorem boundaryStart_flatten (L : List Str) (h : ∀ x ∈ L, boundaryStart x = true) :
    boundaryStart L.flatten = true := by
  induction L with
  | nil => rfl
  | cons x xs ih =>
    simp only [List.flatten_cons]
    exact boundaryStart_append _ _ (h x (by simp)) (ih fun y hy => h y (by simp [hy]))

theorem count_chars_flatten (L : List Str) :
    count_chars L.flatten = (L.map count_chars).sum := by
  induction L with
  | nil => rfl
  | cons x xs ih => simp [List.flatten_cons, count_chars_append, ih]

theorem splice_aux (A1 B1 A2 B2 : Str) (hlen : A1.length ≤ A2.length)
    (heq : A1 ++ B1 = A2 ++ B2) (hc : count_chars A1 = count_chars A2)
    (hb1 : boundaryStart B1 = true) : A1 = A2 := by
  have h2 : A2 = A1 ++ B1.take (A2.length - A1.length) := by
    have h5 : (A1 ++ B1).take A2.length = A1 ++ B1.take (A2.length - A1.length) := by
      have h4 : A2.length = A1.length + (A2.length - A1.length) := by omega
      calc (A1 ++ B1).take A2.length
          = (A1 ++ B1).take (A1.length + (A2.length - A1.length)) := by rw [← h4]
        _ = A1 ++ B1.take (A2.length - A1.length) := by
            rw [List.take_add, List.take_left' rfl, List.drop_left]
    rw [← h5, heq, List.take_left]
  have hc2 : count_chars (B1.take (A2.length - A1.length)) = 0 := by
    have := congrArg count_chars h2
    rw [count_chars_append] at this
    omega
  cases hB : B1.take (A2.length - A1.length) with
  | nil => rw [hB] at h2; simpa using h2.symm
  | cons y ys =>
    exfalso
    have hbt : boundaryStart (B1.take (A2.length - A1.length)) = true :=
      boundaryStart_take _ _ hb1
    have := count_chars_pos _ (by rw [hB]; simp) hbt
    omega

theorem splice_unique (A1 B1 A2 B2 : Str) (heq : A1 ++ B1 = A2 ++ B2)
    (hc : count_chars A1 = count_chars A2) (hb1 : boundaryStart B1 = true)
    (hb2 : boundaryStart B2 = true) : A1 = A2 ∧ B1 = B2 := by
  rcases Nat.le_total A1.length A2.length with h | h
  · have hA := splice_aux A1 B1 A2 B2 h heq hc hb1
    refine ⟨hA, ?_⟩
    exact (List.append_inj heq (by rw [hA])).2
  · have hA := splice_aux A2 B2 A1 B1 h heq.symm hc.symm hb2
    refine ⟨hA.symm, ?_⟩
    exact (List.append_inj heq (by rw [hA])).2

theorem insertIdx_append_len {α : Type} (l1 l2 : List α) (x : α) :
    List.insertIdx l1.length x (l1 ++ l2) = l1 ++ x :: l2 := by
  induction l1 with
  | nil => simp
  | cons a as ih => simpa [List.insertIdx_succ_cons] using ih

theorem set_append_len {α : Type} (l1 : List α) (p : α) (l2 : List α) (b : α) :
    (l1 ++ p :: l2).set l1.length b = l1 ++ b :: l2 := by
  induction l1 with
  | nil => simp
  | cons a as ih => simpa using ih

theorem getElem?_append_len {α : Type} (l1 : List α) (p : α) (l2 : List α) :
    (l1 ++ p :: l2)[l1.length]? = some p := by
  rw [List.getElem?_append_right (le_refl _)]
  simp

theorem getD_append_len {α : Type} (l1 : List α) (p : α) (l2 : List α) (d : α) :
    (l1 ++ p :: l2).getD l1.length d = p := by
  rw [List.getD_eq_getElem?_getD, getElem?_append_len]
  rfl

theorem take_append_cons {α : Type} (l1 : List α) (p : α) (l2 : List α) :
    (l1 ++ p :: l2).take (l1.length + 1) = l1 ++ [p] := by
  rw [List.take_add, List.take_left' rfl, List.drop_left]
  simp

theorem sumCharsOf_append (a b : List Piece) :
    sumCharsOf (a ++ b) = sumCharsOf a + sumCharsOf b := by
  simp [sumCharsOf]

theorem sumCharsOf_cons (p : Piece) (l : List Piece) :
    sumCharsOf (p :: l) = p.len_chars + sumCharsOf l := by
  simp [sumCharsOf]

theorem sumCharsOf_take_mono (l : List Piece) (q q' : Nat) (h : q ≤ q') :
    sumCharsOf (l.take q) ≤ sumCharsOf (l.take q') := by
  have h4 : q' = q + (q' - q) := by omega
  rw [h4, List.take_add, sumCharsOf_append]
  omega

theorem sliceRange_length (s : Str) (a b : Nat) (hab : a ≤ b) (hb : b ≤ s.length) :
    (sliceRange s a b).length = b - a := by
  simp only [sliceRange, List.length_take, List.length_drop]
  omega

theorem sliceRange_append_left (s u : Str) (a b : Nat) (hb : b ≤ s.length) :
    sliceRange (s ++ u) a b = sliceRange s a b := by
  unfold sliceRange
  by_cases ha : a ≤ s.length
  · rw [List.drop_append_of_le_length ha,
      List.take_append_of_le_length (by simp [List.length_drop]; omega)]
  · have hz : b - a = 0 := by omega
    simp [hz]

theorem sliceRange_append_self (s u : Str) :
    sliceRange (s ++ u) s.length (s.length + u.length) = u := by
  unfold sliceRange
  rw [List.drop_left]
  simp

theorem appendAdd_get_original (bufs : Buffers) (txt : Str) :
    (appendAdd bufs txt).get BufferType.original = bufs.get BufferType.original := rfl

theorem appendAdd_get_add (bufs : Buffers) (txt : Str) :
    (appendAdd bufs txt).get BufferType.add = bufs.get BufferType.add ++ txt := rfl

theorem buffers_get_length_appendAdd (bufs : Buffers) (txt : Str) (bt : BufferType) :
    (bufs.get bt).length ≤ ((appendAdd bufs txt).get bt).length := by
  cases bt
  · simp [appendAdd_get_original]
  · simp [appendAdd_get_add]

theorem pieceText_appendAdd (bufs : Buffers) (txt : Str) (p : Piece)
    (h : p.start + p.len_bytes ≤ (bufs.get p.buffer).length) :
    pieceText (appendAdd bufs txt) p = pieceText bufs p := by
  cases hb : p.buffer with
  | original => simp [pieceText, hb, appendAdd_get_original]
  | add =>
    rw [hb] at h
    simp only [pieceText, hb, appendAdd_get_add]
    exact sliceRange_append_left _ _ _ _ h

theorem pieceText_newAddPiece (bufs : Buffers) (txt : Str) :
    pieceText (appendAdd bufs txt) (newAddPiece bufs txt) = txt := by
  show sliceRange (bufs.add.content ++ txt) bufs.add.content.length
      (bufs.add.content.length + txt.length) = txt
  exact sliceRange_append_self _ _

theorem pieceText_length (bufs : Buffers) (p : Piece)
    (h : p.start + p.len_bytes ≤ (bufs.get p.buffer).length) :
    (pieceText bufs p).length = p.len_bytes := by
  have h2 := sliceRange_length (bufs.get p.buffer) p.start (p.start + p.len_bytes)
    (by omega) h
  simp only [pieceText, h2]
  omega

theorem pieceText_eq_take (bufs : Buffers) (p : Piece) :
    pieceText bufs p = ((bufs.get p.buffer).drop p.start).take p.len_bytes := by
  have h3 : p.start + p.len_bytes - p.start = p.len_bytes := by omega
  simp [pieceText, sliceRange, h3]

theorem drop_start_decomp (bufs : Buffers) (p : Piece) :
    (bufs.get p.buffer).drop p.start =
      pieceText bufs p ++ (bufs.get p.buffer).drop (p.start + p.len_bytes) := by
  rw [pieceText_eq_take]
  have h4 : (bufs.get p.buffer).drop (p.start + p.len_bytes) =
      ((bufs.get p.buffer).drop p.start).drop p.len_bytes := by
    rw [List.drop_drop]
  rw [h4, List.take_append_drop]

theorem piece_at_char_go_ok (char_idx : Nat) (l : List Piece) :
    ∀ (a off j rci : Nat),
      piece_at_char_go char_idx a off l = .ok (j, rci) → off ≤ char_idx →
      ∃ l1 p l2, l = l1 ++ p :: l2 ∧ j = a + l1.length ∧
        off + (sumCharsOf l1 + rci) = char_idx ∧ rci ≤ p.len_chars := by
  induction l with
  | nil =>
    intro a off j rci h _
    simp [piece_at_char_go] at h
  | cons p rest ih =>
    intro a off j rci h hoff
    by_cases hc : char_idx ≤ off + p.len_chars
    · simp [piece_at_char_go, hc] at h
      obtain ⟨hj, hr⟩ := h
      refine ⟨[], p, rest, by simp, by simp [hj], ?_, ?_⟩
      · simp [sumCharsOf]
        omega
      · omega
    · simp only [piece_at_char_go, hc, if_false, if_neg hc] at h
      have hoff2 : off + p.len_chars ≤ char_idx := by omega
      obtain ⟨l1, q, l2, hdec, hj, hsum, hr⟩ := ih (a + 1) (off + p.len_chars) j rci h hoff2
      refine ⟨p :: l1, q, l2, by rw [hdec]; rfl, ?_, ?_, hr⟩
      · simp [hj]
        omega
      · rw [sumCharsOf_cons]
        omega

theorem piece_at_char_ok {t : PieceTable} {cidx j rci : Nat}
    (h : t.piece_at_char cidx = .ok (j, rci)) :
    cidx ≤ t.len_chars ∧ ∃ l1 p l2, t.pieces = l1 ++ p :: l2 ∧ j = l1.length ∧
      sumCharsOf l1 + rci = cidx ∧ rci ≤ p.len_chars := by
  unfold PieceTable.piece_at_char at h
  by_cases hle : cidx ≤ t.len_chars
  · simp only [hle, if_true] at h
    obtain ⟨l1, p, l2, hdec, hj, hsum, hr⟩ :=
      piece_at_char_go_ok cidx t.pieces 0 0 j rci h (Nat.zero_le _)
    exact ⟨hle, l1, p, l2, hdec, by omega, by omega, hr⟩
  · simp [hle] at h

theorem insert_piece_eq (t : PieceTable) (index : Nat) (txt : Str) :
    t.insert_piece index txt =
      { t with
        len_lines := t.len_lines + (line_breaks txt t.buffers.add.content.length).2
        buffers := appendAdd t.buffers txt
        pieces := t.pieces.insertIdx index (newAddPiece t.buffers txt) } := rfl


theorem split_piece_and_insert_eq (t : PieceTable) (l1 : List Piece) (p : Piece)
    (l2 : List Piece) (rci : Nat) (txt : Str)
    (hdec : t.pieces = l1 ++ p :: l2)
    (hcrlf : ¬(((t.buffers.get p.buffer).drop p.start).getD (rci - 1) 0 = 0x0D ∧
        ((t.buffers.get p.buffer).drop p.start).getD rci 0 = 0x0A)) :
    t.split_piece_and_insert l1.length rci txt = .ok
      { t with
        len_lines := t.len_lines + (line_breaks txt t.buffers.add.content.length).2
        buffers := appendAdd t.buffers txt
        pieces := l1 ++ beforePiece t.buffers p rci :: newAddPiece t.buffers txt ::
          afterPiece t.buffers p rci :: l2 } := by
  have hidx1 : List.insertIdx (l1.length + 1) (newAddPiece t.buffers txt)
      (l1 ++ beforePiece t.buffers p rci :: l2) =
      l1 ++ beforePiece t.buffers p rci :: newAddPiece t.buffers txt :: l2 := by
    have h5 := insertIdx_append_len (l1 ++ [beforePiece t.buffers p rci]) l2
      (newAddPiece t.buffers txt)
    simpa using h5
  have hidx2 : List.insertIdx (l1.length + 2) (afterPiece t.buffers p rci)
      (l1 ++ beforePiece t.buffers p rci :: newAddPiece t.buffers txt :: l2) =
      l1 ++ beforePiece t.buffers p rci :: newAddPiece t.buffers txt ::
        afterPiece t.buffers p rci :: l2 := by
    have h5 := insertIdx_append_len
      (l1 ++ [beforePiece t.buffers p rci, newAddPiece t.buffers txt]) l2
      (afterPiece t.buffers p rci)
    have h6 : (l1 ++ [beforePiece t.buffers p rci, newAddPiece t.buffers txt]).length =
        l1.length + 2 := by simp
    rw [h6] at h5
    simpa using h5
  have hsurg : List.insertIdx (l1.length + 2) (afterPiece t.buffers p rci)
      (List.insertIdx (l1.length + 1) (newAddPiece t.buffers txt)
        ((l1 ++ p :: l2).set l1.length (beforePiece t.buffers p rci))) =
      l1 ++ beforePiece t.buffers p rci :: newAddPiece t.buffers txt ::
        afterPiece t.buffers p rci :: l2 := by
    rw [set_append_len, hidx1, hidx2]
  simp only [PieceTable.split_piece_and_insert, hdec, getElem?_append_len, if_neg hcrlf,
    insert_piece_eq]
  exact congrArg (fun pcs => (Except.ok
    { t with
      len_lines := t.len_lines + (line_breaks txt t.buffers.add.content.length).2
      buffers := appendAdd t.buffers txt
      pieces := pcs } : Except String PieceTable)) hsurg

theorem insert_slow_spec (t : PieceTable) (i : Nat) (txt : Str) (t' : PieceTable)
    (hli : t.last_insert = none) (hci : t.ci = false)
    (h : t.insert i txt = .ok t') :
    ∃ l1 p l2 rci pos piecesNew,
      t.pieces = l1 ++ p :: l2 ∧
      sumCharsOf l1 + rci = i ∧
      rci ≤ p.len_chars ∧
      ((rci = 0 ∧ pos = l1.length ∧
          piecesNew = l1 ++ newAddPiece t.buffers txt :: p :: l2) ∨
       (0 < rci ∧ rci = p.len_chars ∧ pos = l1.length + 1 ∧
          piecesNew = l1 ++ p :: newAddPiece t.buffers txt :: l2) ∨
       (0 < rci ∧ rci < p.len_chars ∧ pos = l1.length + 1 ∧
          piecesNew = l1 ++ beforePiece t.buffers p rci :: newAddPiece t.buffers txt ::
            afterPiece t.buffers p rci :: l2)) ∧
      t' = { pieces := piecesNew
             buffers := appendAdd t.buffers txt
             len_bytes := t.len_bytes + txt.length
             len_chars := t.len_chars + count_chars txt
             len_lines := t.len_lines + (line_breaks txt t.buffers.add.content.length).2
             ci := false
             last_insert := none } ∧
      ∀ c : Bool, PieceTable.insert { t with ci := c } i txt = .ok
        { pieces := piecesNew
          buffers := appendAdd t.buffers txt
          len_bytes := t.len_bytes + txt.length
          len_chars := t.len_chars + count_chars txt
          len_lines := t.len_lines + (line_breaks txt t.buffers.add.content.length).2
          ci := c
          last_insert := if c then some (i + count_chars txt, pos) else none } := by
  obtain ⟨pieces, bufs, lb, lc, ll, tci, tli⟩ := t
  simp only [PieceTable.last_insert] at hli
  simp only [PieceTable.ci] at hci
  subst hli
  subst hci
  have hins : ∀ c : Bool,
      PieceTable.insert ⟨pieces, bufs, lb, lc, ll, c, none⟩ i txt =
      PieceTable.insertSlow ⟨pieces, bufs, lb + txt.length, lc + count_chars txt, ll, c, none⟩
        i txt (count_chars txt) := by
    intro c
    cases c <;> rfl
  rw [show (PieceTable.insert ⟨pieces, bufs, lb, lc, ll, false, none⟩ i txt) =
    PieceTable.insertSlow ⟨pieces, bufs, lb + txt.length, lc + count_chars txt, ll, false, none⟩
      i txt (count_chars txt) from hins false] at h
  cases hpac : PieceTable.piece_at_char
      ⟨pieces, bufs, lb + txt.length, lc + count_chars txt, ll, false, none⟩ i with
  | error msg =>
    simp only [PieceTable.insertSlow, hpac] at h
    exact Except.noConfusion h
  | ok pr =>
    obtain ⟨j, rci⟩ := pr
    obtain ⟨hile, l1, p, l2, hdec, hj, hsum, hr⟩ := piece_at_char_ok hpac
    simp only [PieceTable.pieces] at hdec
    subst hdec
    subst hj
    have hpacc : ∀ c : Bool, PieceTable.piece_at_char
        ⟨l1 ++ p :: l2, bufs, lb + txt.length, lc + count_chars txt, ll, c, none⟩ i =
        .ok (l1.length, rci) := fun _ => hpac
    by_cases h0 : rci = 0
    · -- prepend to the located piece
      have hrun : ∀ c : Bool,
          PieceTable.insert ⟨l1 ++ p :: l2, bufs, lb, lc, ll, c, none⟩ i txt = .ok
            { pieces := l1 ++ newAddPiece bufs txt :: p :: l2
              buffers := appendAdd bufs txt
              len_bytes := lb + txt.length
              len_chars := lc + count_chars txt
              len_lines := ll + (line_breaks txt bufs.add.content.length).2
              ci := c
              last_insert := if c then some (i + count_chars txt, l1.length) else none } := by
        intro c
        rw [hins c]
        simp only [PieceTable.insertSlow, hpacc c, if_pos h0, insert_piece_eq]
        rw [insertIdx_append_len]
        cases c <;> rfl
      refine ⟨l1, p, l2, rci, l1.length, l1 ++ newAddPiece bufs txt :: p :: l2, rfl,
        hsum, hr, Or.inl ⟨h0, rfl, rfl⟩, ?_, hrun⟩
      have h2 := (hrun false).symm.trans h
      exact (Except.ok.inj h2).symm
    · have hget : (List.getD (l1 ++ p :: l2) l1.length default) = p := getD_append_len _ _ _ _
      by_cases h1 : rci = p.len_chars
      · -- append after the located piece
        have hidx : List.insertIdx (l1.length + 1) (newAddPiece bufs txt) (l1 ++ p :: l2) =
            l1 ++ p :: newAddPiece bufs txt :: l2 := by
          have h5 := insertIdx_append_len (l1 ++ [p]) l2 (newAddPiece bufs txt)
          simpa using h5
        have hrun : ∀ c : Bool,
            PieceTable.insert ⟨l1 ++ p :: l2, bufs, lb, lc, ll, c, none⟩ i txt = .ok
              { pieces := l1 ++ p :: newAddPiece bufs txt :: l2
                buffers := appendAdd bufs txt
                len_bytes := lb + txt.length
                len_chars := lc + count_chars txt
                len_lines := ll + (line_breaks txt bufs.add.content.length).2
                ci := c
                last_insert := if c then some (i + count_chars txt, l1.length + 1) else none } := by
          intro c
          rw [hins c]
          simp only [PieceTable.insertSlow, hpacc c, if_neg h0, hget, if_pos h1,
            insert_piece_eq]
          rw [hidx]
          cases c <;> rfl
        refine ⟨l1, p, l2, rci, l1.length + 1, l1 ++ p :: newAddPiece bufs txt :: l2, rfl,
          hsum, hr, Or.inr (Or.inl ⟨Nat.pos_of_ne_zero h0, h1, rfl, rfl⟩), ?_, hrun⟩
        have h2 := (hrun false).symm.trans h
        exact (Except.ok.inj h2).symm
      · -- split the located piece
        have h1' : rci < p.len_chars := lt_of_le_of_ne hr h1
        by_cases hcrlf : ((bufs.get p.buffer).drop p.start).getD (rci - 1) 0 = 0x0D ∧
            ((bufs.get p.buffer).drop p.start).getD rci 0 = 0x0A
        · exfalso
          simp only [PieceTable.insertSlow, hpacc false, if_neg h0, hget, if_neg h1,
            PieceTable.split_piece_and_insert, getElem?_append_len, if_pos hcrlf] at h
          exact Except.noConfusion h
        · have hsplit : ∀ c : Bool,
              PieceTable.split_piece_and_insert
                ⟨l1 ++ p :: l2, bufs, lb + txt.length, lc + count_chars txt, ll, c, none⟩
                l1.length rci txt = .ok
              { pieces := l1 ++ beforePiece bufs p rci :: newAddPiece bufs txt ::
                  afterPiece bufs p rci :: l2
                buffers := appendAdd bufs txt
                len_bytes := lb + txt.length
                len_chars := lc + count_chars txt
                len_lines := ll + (line_breaks txt bufs.add.content.length).2
                ci := c
                last_insert := none } := by
            intro c
            exact split_piece_and_insert_eq
              ⟨l1 ++ p :: l2, bufs, lb + txt.length, lc + count_chars txt, ll, c, none⟩
              l1 p l2 rci txt rfl hcrlf
          have hrun : ∀ c : Bool,
              PieceTable.insert ⟨l1 ++ p :: l2, bufs, lb, lc, ll, c, none⟩ i txt = .ok
                { pieces := l1 ++ beforePiece bufs p rci :: newAddPiece bufs txt ::
                    afterPiece bufs p rci :: l2
                  buffers := appendAdd bufs txt
                  len_bytes := lb + txt.length
                  len_chars := lc + count_chars txt
                  len_lines := ll + (line_breaks txt bufs.add.content.length).2
                  ci := c
                  last_insert := if c then some (i + count_chars txt, l1.length + 1) else none } := by
            intro c
            rw [hins c]
            simp only [PieceTable.insertSlow, hpacc c, if_neg h0, hget, if_neg h1, hsplit c]
            cases c <;> rfl
          refine ⟨l1, p, l2, rci, l1.length + 1,
            l1 ++ beforePiece bufs p rci :: newAddPiece bufs txt ::
              afterPiece bufs p rci :: l2, rfl,
            hsum, hr, Or.inr (Or.inr ⟨Nat.pos_of_ne_zero h0, h1', rfl, rfl⟩), ?_, hrun⟩
          have h2 := (hrun false).symm.trans h
          exact (Except.ok.inj h2).symm


theorem split_text_before (bufs : Buffers) (p : Piece) (rci : Nat)
    (hinb : p.start + p.len_bytes ≤ (bufs.get p.buffer).length)
    (hcc : count_chars (pieceText bufs p) = p.len_chars)
    (hrlt : rci < p.len_chars) :
    splitByteIdx bufs p rci = char_to_byte (pieceText bufs p) rci ∧
    splitByteIdx bufs p rci ≤ p.len_bytes ∧
    pieceText bufs (beforePiece bufs p rci) =
      (pieceText bufs p).take (char_to_byte (pieceText bufs p) rci) ∧
    pieceText bufs (afterPiece bufs p rci) =
      (pieceText bufs p).drop (char_to_byte (pieceText bufs p) rci) := by
  have hL : (pieceText bufs p).length = p.len_bytes := pieceText_length bufs p hinb
  have hbi : splitByteIdx bufs p rci = char_to_byte (pieceText bufs p) rci := by
    rw [splitByteIdx, drop_start_decomp]
    exact char_to_byte_append _ _ rci (by rw [hcc]; exact hrlt)
  have hbile : char_to_byte (pieceText bufs p) rci ≤ p.len_bytes := by
    rw [← hL]
    exact char_to_byte_le_length _ _
  refine ⟨hbi, by rw [hbi]; exact hbile, ?_, ?_⟩
  · -- before text
    have h2 : pieceText bufs (beforePiece bufs p rci) =
        ((bufs.get p.buffer).drop p.start).take (splitByteIdx bufs p rci) := by
      rw [pieceText_eq_take]
      rfl
    rw [h2, hbi, drop_start_decomp,
      List.take_append_of_le_length (by rw [hL]; exact hbile)]
  · -- after text
    have h2 : pieceText bufs (afterPiece bufs p rci) =
        ((bufs.get p.buffer).drop (p.start + splitByteIdx bufs p rci)).take
          (p.len_bytes - splitByteIdx bufs p rci) := by
      rw [pieceText_eq_take]
      rfl
    rw [h2, hbi]
    rw [show p.start + char_to_byte (pieceText bufs p) rci =
      p.start + char_to_byte (pieceText bufs p) rci from rfl]
    rw [← List.drop_drop]
    have h3 : (pieceText bufs p).drop (char_to_byte (pieceText bufs p) rci) =
        (((bufs.get p.buffer).drop p.start).take p.len_bytes).drop
          (char_to_byte (pieceText bufs p) rci) := by
      rw [pieceText_eq_take]
    rw [h3, List.drop_take]

theorem valid_slow_result
    (t : PieceTable) (txt : Str) (l1 : List Piece) (p : Piece) (l2 : List Piece)
    (rci pos : Nat) (piecesNew : List Piece) (lbA llA : Nat) (c : Bool)
    (li : Option (Nat × Nat))
    (hv : Valid t) (hb : boundaryStart txt = true)
    (hdec : t.pieces = l1 ++ p :: l2)
    (hr : rci ≤ p.len_chars)
    (hbr : (rci = 0 ∧ pos = l1.length ∧
          piecesNew = l1 ++ newAddPiece t.buffers txt :: p :: l2) ∨
       (0 < rci ∧ rci = p.len_chars ∧ pos = l1.length + 1 ∧
          piecesNew = l1 ++ p :: newAddPiece t.buffers txt :: l2) ∨
       (0 < rci ∧ rci < p.len_chars ∧ pos = l1.length + 1 ∧
          piecesNew = l1 ++ beforePiece t.buffers p rci :: newAddPiece t.buffers txt ::
            afterPiece t.buffers p rci :: l2)) :
    Valid { pieces := piecesNew
            buffers := appendAdd t.buffers txt
            len_bytes := lbA
            len_chars := t.len_chars + count_chars txt
            len_lines := llA
            ci := c
            last_insert := li } := by
  have hmem1 : ∀ q ∈ l1, q ∈ t.pieces := by
    intro q hq
    rw [hdec]
    exact List.mem_append_left _ hq
  have hmemp : p ∈ t.pieces := by
    rw [hdec]
    simp
  have hmem2 : ∀ q ∈ l2, q ∈ t.pieces := by
    intro q hq
    rw [hdec]
    simp [hq]
  have holdInb : ∀ q ∈ t.pieces,
      q.start + q.len_bytes ≤ ((appendAdd t.buffers txt).get q.buffer).length :=
    fun q hq => le_trans (hv.inb q hq) (buffers_get_length_appendAdd _ _ _)
  have holdTxt : ∀ q ∈ t.pieces,
      pieceText (appendAdd t.buffers txt) q = pieceText t.buffers q :=
    fun q hq => pieceText_appendAdd _ _ _ (hv.inb q hq)
  have hnewInb : (newAddPiece t.buffers txt).start + (newAddPiece t.buffers txt).len_bytes ≤
      ((appendAdd t.buffers txt).get (newAddPiece t.buffers txt).buffer).length := by
    show t.buffers.add.content.length + txt.length ≤
      (t.buffers.add.content ++ txt).length
    simp
  have hnewTxt : pieceText (appendAdd t.buffers txt) (newAddPiece t.buffers txt) = txt :=
    pieceText_newAddPiece _ _
  have hagg := hv.agg
  rw [hdec, sumCharsOf_append, sumCharsOf_cons] at hagg
  rcases hbr with ⟨h0, hpos, hpn⟩ | ⟨h0, h1, hpos, hpn⟩ | ⟨h0, h1, hpos, hpn⟩
  · subst hpn
    refine ⟨?_, ?_, ?_, ?_⟩
    · show sumCharsOf (l1 ++ newAddPiece t.buffers txt :: p :: l2) =
        t.len_chars + count_chars txt
      rw [sumCharsOf_append, sumCharsOf_cons, sumCharsOf_cons]
      show sumCharsOf l1 + (count_chars txt + (p.len_chars + sumCharsOf l2)) = _
      omega
    · intro q hq
      simp only [List.mem_append, List.mem_cons] at hq
      rcases hq with hq | hq | hq | hq
      · exact holdInb q (hmem1 q hq)
      · subst hq; exact hnewInb
      · rw [hq]; exact holdInb p hmemp
      · exact holdInb q (hmem2 q hq)
    · intro q hq
      simp only [List.mem_append, List.mem_cons] at hq
      rcases hq with hq | hq | hq | hq
      · rw [holdTxt q (hmem1 q hq)]; exact hv.chars q (hmem1 q hq)
      · subst hq; rw [hnewTxt]; rfl
      · rw [hq, holdTxt p hmemp]; exact hv.chars p hmemp
      · rw [holdTxt q (hmem2 q hq)]; exact hv.chars q (hmem2 q hq)
    · intro q hq
      simp only [List.mem_append, List.mem_cons] at hq
      rcases hq with hq | hq | hq | hq
      · rw [holdTxt q (hmem1 q hq)]; exact hv.bnd q (hmem1 q hq)
      · subst hq; rw [hnewTxt]; exact hb
      · rw [hq, holdTxt p hmemp]; exact hv.bnd p hmemp
      · rw [holdTxt q (hmem2 q hq)]; exact hv.bnd q (hmem2 q hq)
  · subst hpn
    refine ⟨?_, ?_, ?_, ?_⟩
    · show sumCharsOf (l1 ++ p :: newAddPiece t.buffers txt :: l2) =
        t.len_chars + count_chars txt
      rw [sumCharsOf_append, sumCharsOf_cons, sumCharsOf_cons]
      show sumCharsOf l1 + (p.len_chars + (count_chars txt + sumCharsOf l2)) = _
      omega
    · intro q hq
      simp only [List.mem_append, List.mem_cons] at hq
      rcases hq with hq | hq | hq | hq
      · exact holdInb q (hmem1 q hq)
      · rw [hq]; exact holdInb p hmemp
      · subst hq; exact hnewInb
      · exact holdInb q (hmem2 q hq)
    · intro q hq
      simp only [List.mem_append, List.mem_cons] at hq
      rcases hq with hq | hq | hq | hq
      · rw [holdTxt q (hmem1 q hq)]; exact hv.chars q (hmem1 q hq)
      · rw [hq, holdTxt p hmemp]; exact hv.chars p hmemp
      · subst hq; rw [hnewTxt]; rfl
      · rw [holdTxt q (hmem2 q hq)]; exact hv.chars q (hmem2 q hq)
    · intro q hq
      simp only [List.mem_append, List.mem_cons] at hq
      rcases hq with hq | hq | hq | hq
      · rw [holdTxt q (hmem1 q hq)]; exact hv.bnd q (hmem1 q hq)
      · rw [hq, holdTxt p hmemp]; exact hv.bnd p hmemp
      · subst hq; rw [hnewTxt]; exact hb
      · rw [holdTxt q (hmem2 q hq)]; exact hv.bnd q (hmem2 q hq)
  · subst hpn
    obtain ⟨hbi, hbile, hbt, hat⟩ :=
      split_text_before t.buffers p rci (hv.inb p hmemp) (hv.chars p hmemp) h1
    have hLcc : count_chars (pieceText t.buffers p) = p.len_chars := hv.chars p hmemp
    have hbInb : (beforePiece t.buffers p rci).start +
        (beforePiece t.buffers p rci).len_bytes ≤
        ((appendAdd t.buffers txt).get (beforePiece t.buffers p rci).buffer).length := by
      show p.start + splitByteIdx t.buffers p rci ≤
        ((appendAdd t.buffers txt).get p.buffer).length
      have h5 := holdInb p hmemp
      rw [hbi] at *
      omega
    have haInb : (afterPiece t.buffers p rci).start +
        (afterPiece t.buffers p rci).len_bytes ≤
        ((appendAdd t.buffers txt).get (afterPiece t.buffers p rci).buffer).length := by
      show p.start + splitByteIdx t.buffers p rci +
        (p.len_bytes - splitByteIdx t.buffers p rci) ≤
        ((appendAdd t.buffers txt).get p.buffer).length
      have h5 := holdInb p hmemp
      rw [hbi] at *
      omega
    have hbInbOld : (beforePiece t.buffers p rci).start +
        (beforePiece t.buffers p rci).len_bytes ≤
        (t.buffers.get (beforePiece t.buffers p rci).buffer).length := by
      show p.start + splitByteIdx t.buffers p rci ≤ (t.buffers.get p.buffer).length
      have h5 := hv.inb p hmemp
      rw [hbi] at *
      omega
    have haInbOld : (afterPiece t.buffers p rci).start +
        (afterPiece t.buffers p rci).len_bytes ≤
        (t.buffers.get (afterPiece t.buffers p rci).buffer).length := by
      show p.start + splitByteIdx t.buffers p rci +
        (p.len_bytes - splitByteIdx t.buffers p rci) ≤ (t.buffers.get p.buffer).length
      have h5 := hv.inb p hmemp
      rw [hbi] at *
      omega
    have hbTxtA : pieceText (appendAdd t.buffers txt) (beforePiece t.buffers p rci) =
        pieceText t.buffers (beforePiece t.buffers p rci) :=
      pieceText_appendAdd _ _ _ hbInbOld
    have haTxtA : pieceText (appendAdd t.buffers txt) (afterPiece t.buffers p rci) =
        pieceText t.buffers (afterPiece t.buffers p rci) :=
      pieceText_appendAdd _ _ _ haInbOld
    have hbChars : count_chars (pieceText t.buffers (beforePiece t.buffers p rci)) = rci := by
      rw [hbt]
      exact count_chars_take_char_to_byte _ _ (by rw [hLcc]; omega)
    have haChars : count_chars (pieceText t.buffers (afterPiece t.buffers p rci)) =
        p.len_chars - rci := by
      rw [hat]
      have h5 : pieceText t.buffers p =
          (pieceText t.buffers p).take (char_to_byte (pieceText t.buffers p) rci) ++
          (pieceText t.buffers p).drop (char_to_byte (pieceText t.buffers p) rci) :=
        (List.take_append_drop _ _).symm
      have h6 := congrArg count_chars h5
      rw [count_chars_append] at h6
      rw [hbt] at hbChars
      omega
    refine ⟨?_, ?_, ?_, ?_⟩
    · show sumCharsOf (l1 ++ beforePiece t.buffers p rci :: newAddPiece t.buffers txt ::
        afterPiece t.buffers p rci :: l2) = t.len_chars + count_chars txt
      rw [sumCharsOf_append, sumCharsOf_cons, sumCharsOf_cons, sumCharsOf_cons]
      show sumCharsOf l1 + (rci + (count_chars txt + (p.len_chars - rci + sumCharsOf l2))) = _
      omega
    · intro q hq
      simp only [List.mem_append, List.mem_cons] at hq
      rcases hq with hq | hq | hq | hq | hq
      · exact holdInb q (hmem1 q hq)
      · subst hq; exact hbInb
      · subst hq; exact hnewInb
      · subst hq; exact haInb
      · exact holdInb q (hmem2 q hq)
    · intro q hq
      simp only [List.mem_append, List.mem_cons] at hq
      rcases hq with hq | hq | hq | hq | hq
      · rw [holdTxt q (hmem1 q hq)]; exact hv.chars q (hmem1 q hq)
      · subst hq; rw [hbTxtA]; exact hbChars
      · subst hq; rw [hnewTxt]; rfl
      · subst hq; rw [haTxtA]; exact haChars
      · rw [holdTxt q (hmem2 q hq)]; exact hv.chars q (hmem2 q hq)
    · intro q hq
      simp only [List.mem_append, List.mem_cons] at hq
      rcases hq with hq | hq | hq | hq | hq
      · rw [holdTxt q (hmem1 q hq)]; exact hv.bnd q (hmem1 q hq)
      · subst hq
        rw [hbTxtA, hbt]
        exact boundaryStart_take _ _ (hv.bnd p hmemp)
      · subst hq; rw [hnewTxt]; exact hb
      · subst hq
        rw [haTxtA, hat]
        exact boundaryStart_drop_char_to_byte _ _
      · rw [holdTxt q (hmem2 q hq)]; exact hv.bnd q (hmem2 q hq)


theorem take_append_exact {α : Type} (a b : List α) (n : Nat) (hn : a.length = n) :
    (a ++ b).take (n + b.length) = a ++ b := by
  subst hn
  rw [List.take_add, List.take_left' rfl, List.drop_left, List.take_length]

theorem extend_text (bufs : Buffers) (pk : Piece) (txt : Str)
    (hbuf : pk.buffer = BufferType.add)
    (hend : pk.start + pk.len_bytes = (bufs.get BufferType.add).length) :
    pieceText (appendAdd bufs txt)
      { pk with len_bytes := pk.len_bytes + txt.length
                len_chars := pk.len_chars + count_chars txt } =
      pieceText bufs pk ++ txt := by
  have h1 : pieceText (appendAdd bufs txt)
      { pk with len_bytes := pk.len_bytes + txt.length
                len_chars := pk.len_chars + count_chars txt } =
      (((appendAdd bufs txt).get pk.buffer).drop pk.start).take (pk.len_bytes + txt.length) :=
    pieceText_eq_take _ _
  have h2 : pieceText bufs pk = ((bufs.get pk.buffer).drop pk.start).take pk.len_bytes :=
    pieceText_eq_take _ _
  rw [h1, h2, hbuf, appendAdd_get_add]
  have hst : pk.start ≤ (bufs.get BufferType.add).length := by omega
  rw [List.drop_append_of_le_length hst]
  have hdl : ((bufs.get BufferType.add).drop pk.start).length = pk.len_bytes := by
    rw [List.length_drop]
    omega
  rw [take_append_exact _ _ _ hdl, ← hdl, List.take_length]

theorem insert_fast_spec (F : PieceTable) (e k : Nat) (txt : Str)
    (f1 : List Piece) (pk : Piece) (f2 : List Piece)
    (hci : F.ci = true) (hli : F.last_insert = some (e, k))
    (hdec : F.pieces = f1 ++ pk :: f2) (hk : k = f1.length)
    (hend : pk.start + pk.len_bytes = F.buffers.add.content.length) :
    F.insert e txt = .ok
      { pieces := f1 ++ { pk with len_bytes := pk.len_bytes + txt.length
                                  len_chars := pk.len_chars + count_chars txt } :: f2
        buffers := appendAdd F.buffers txt
        len_bytes := F.len_bytes + txt.length
        len_chars := F.len_chars + count_chars txt
        len_lines := F.len_lines + (line_breaks txt F.buffers.add.content.length).2
        ci := true
        last_insert := some (e + count_chars txt, k) } := by
  obtain ⟨pieces, bufs, lb, lc, ll, tci, tli⟩ := F
  simp only [PieceTable.ci] at hci
  simp only [PieceTable.last_insert] at hli
  simp only [PieceTable.pieces] at hdec
  simp only [PieceTable.buffers] at hend
  subst hci
  subst hli
  subst hdec
  subst hk
  simp only [PieceTable.insert, if_true]
  simp only [PieceTable.extend_piece, getElem?_append_len]
  rw [set_append_len, hend]
  rfl


theorem count_chars_flatten_pieces (bufs : Buffers) (l : List Piece)
    (h : ∀ q ∈ l, count_chars (pieceText bufs q) = q.len_chars) :
    count_chars ((l.map (pieceText bufs)).flatten) = sumCharsOf l := by
  rw [count_chars_flatten, List.map_map]
  unfold sumCharsOf
  congr 1
  exact List.map_congr_left fun q hq => h q hq

theorem boundaryStart_flatten_pieces (bufs : Buffers) (l : List Piece)
    (h : ∀ q ∈ l, boundaryStart (pieceText bufs q) = true) :
    boundaryStart ((l.map (pieceText bufs)).flatten) = true := by
  refine boundaryStart_flatten _ ?_
  intro x hx
  simp only [List.mem_map] at hx
  obtain ⟨q, hq, hqx⟩ := hx
  rw [← hqx]
  exact h q hq

theorem step_sim (e k m : Nat) (S F S1 : PieceTable) (txt : Str)
    (hinv : SimInv e k m S F) (hb : boundaryStart txt = true)
    (h : S.insert e txt = .ok S1) :
    ∃ F1, F.insert e txt = .ok F1 ∧ SimInv (e + count_chars txt) k (m + 1) S1 F1 := by
  obtain ⟨l1, p, l2, rci, pos, PN, hdec, hsum, hr, hbr, hS1, hrunAll⟩ :=
    insert_slow_spec S e txt S1 hinv.liS hinv.ciS h
  obtain ⟨s1, s2, hsdec, hs1⟩ := hinv.sdec
  obtain ⟨f1, pk, f2, hfdec, hfk, hfbuf, hfend, hfsum⟩ := hinv.fdec
  have hkey : rci = 0 ∨ rci = p.len_chars := by
    have htl1 : sumCharsOf (S.pieces.take l1.length) = sumCharsOf l1 := by
      rw [hdec, List.take_left]
    have htl1p : sumCharsOf (S.pieces.take (l1.length + 1)) =
        sumCharsOf l1 + p.len_chars := by
      rw [hdec, take_append_cons, sumCharsOf_append, sumCharsOf_cons]
      simp [sumCharsOf]
    have hts1 : sumCharsOf (S.pieces.take s1.length) = e := by
      rw [hsdec, List.take_left]
      exact hs1
    rcases Nat.lt_or_ge s1.length (l1.length + 1) with hc | hc
    · left
      have h5 := sumCharsOf_take_mono S.pieces s1.length l1.length (by omega)
      rw [hts1, htl1] at h5
      omega
    · right
      have h5 := sumCharsOf_take_mono S.pieces (l1.length + 1) s1.length hc
      rw [hts1, htl1p] at h5
      omega
  have hmem1 : ∀ q ∈ l1, q ∈ S.pieces := fun q hq => by
    rw [hdec]; exact List.mem_append_left _ hq
  have hmemp : p ∈ S.pieces := by rw [hdec]; simp
  have hmem2 : ∀ q ∈ l2, q ∈ S.pieces := fun q hq => by rw [hdec]; simp [hq]
  have hfmem1 : ∀ q ∈ f1, q ∈ F.pieces := fun q hq => by
    rw [hfdec]; exact List.mem_append_left _ hq
  have hfmemp : pk ∈ F.pieces := by rw [hfdec]; simp
  have hfmem2 : ∀ q ∈ f2, q ∈ F.pieces := fun q hq => by rw [hfdec]; simp [hq]
  have hF1 := insert_fast_spec F e k txt f1 pk f2 hinv.ciF hinv.liF hfdec hfk hfend
  refine ⟨_, hF1, ?_⟩
  -- maps are unchanged on old pieces
  have hmapl1 : l1.map (pieceText (appendAdd S.buffers txt)) =
      l1.map (pieceText S.buffers) :=
    List.map_congr_left fun q hq => pieceText_appendAdd _ _ _ (hinv.vS.inb q (hmem1 q hq))
  have hmapl2 : l2.map (pieceText (appendAdd S.buffers txt)) =
      l2.map (pieceText S.buffers) :=
    List.map_congr_left fun q hq => pieceText_appendAdd _ _ _ (hinv.vS.inb q (hmem2 q hq))
  have hmapp : pieceText (appendAdd S.buffers txt) p = pieceText S.buffers p :=
    pieceText_appendAdd _ _ _ (hinv.vS.inb p hmemp)
  have hmapf1 : f1.map (pieceText (appendAdd F.buffers txt)) =
      f1.map (pieceText F.buffers) :=
    List.map_congr_left fun q hq => pieceText_appendAdd _ _ _ (hinv.vF.inb q (hfmem1 q hq))
  have hmapf2 : f2.map (pieceText (appendAdd F.buffers txt)) =
      f2.map (pieceText F.buffers) :=
    List.map_congr_left fun q hq => pieceText_appendAdd _ _ _ (hinv.vF.inb q (hfmem2 q hq))
  have hextTxt : pieceText (appendAdd F.buffers txt)
      { pk with len_bytes := pk.len_bytes + txt.length
                len_chars := pk.len_chars + count_chars txt } =
      pieceText F.buffers pk ++ txt :=
    extend_text F.buffers pk txt hfbuf hfend
  -- validity of the fast-path result
  have hvF1 : Valid
      { pieces := f1 ++ { pk with len_bytes := pk.len_bytes + txt.length
                                  len_chars := pk.len_chars + count_chars txt } :: f2
        buffers := appendAdd F.buffers txt
        len_bytes := F.len_bytes + txt.length
        len_chars := F.len_chars + count_chars txt
        len_lines := F.len_lines + (line_breaks txt F.buffers.add.content.length).2
        ci := true
        last_insert := some (e + count_chars txt, k) } := by
    have haggF := hinv.vF.agg
    rw [hfdec, sumCharsOf_append, sumCharsOf_cons] at haggF
    refine ⟨?_, ?_, ?_, ?_⟩
    · show sumCharsOf (f1 ++ _ :: f2) = F.len_chars + count_chars txt
      rw [sumCharsOf_append, sumCharsOf_cons]
      show sumCharsOf f1 + (pk.len_chars + count_chars txt + sumCharsOf f2) = _
      omega
    · intro q hq
      simp only [List.mem_append, List.mem_cons] at hq
      rcases hq with hq | hq | hq
      · exact le_trans (hinv.vF.inb q (hfmem1 q hq)) (buffers_get_length_appendAdd _ _ _)
      · rw [hq]
        show pk.start + (pk.len_bytes + txt.length) ≤
          ((appendAdd F.buffers txt).get pk.buffer).length
        rw [hfbuf, appendAdd_get_add]
        have h6 : pk.start + pk.len_bytes ≤ (F.buffers.get BufferType.add).length := hfend.le
        simp only [List.length_append]
        have h7 : pk.start + pk.len_bytes = (F.buffers.get BufferType.add).length := hfend
        omega
      · exact le_trans (hinv.vF.inb q (hfmem2 q hq)) (buffers_get_length_appendAdd _ _ _)
    · intro q hq
      simp only [List.mem_append, List.mem_cons] at hq
      rcases hq with hq | hq | hq
      · rw [pieceText_appendAdd _ _ _ (hinv.vF.inb q (hfmem1 q hq))]
        exact hinv.vF.chars q (hfmem1 q hq)
      · rw [hq, hextTxt, count_chars_append, hinv.vF.chars pk hfmemp]
      · rw [pieceText_appendAdd _ _ _ (hinv.vF.inb q (hfmem2 q hq))]
        exact hinv.vF.chars q (hfmem2 q hq)
    · intro q hq
      simp only [List.mem_append, List.mem_cons] at hq
      rcases hq with hq | hq | hq
      · rw [pieceText_appendAdd _ _ _ (hinv.vF.inb q (hfmem1 q hq))]
        exact hinv.vF.bnd q (hfmem1 q hq)
      · rw [hq, hextTxt]
        exact boundaryStart_append _ _ (hinv.vF.bnd pk hfmemp) hb
      · rw [pieceText_appendAdd _ _ _ (hinv.vF.inb q (hfmem2 q hq))]
        exact hinv.vF.bnd q (hfmem2 q hq)
  -- F-side text decomposition
  have htF : F.text = ((f1.map (pieceText F.buffers)).flatten ++ pieceText F.buffers pk) ++
      (f2.map (pieceText F.buffers)).flatten := by
    show (F.pieces.map (pieceText F.buffers)).flatten = _
    rw [hfdec, List.map_append, List.map_cons, List.flatten_append, List.flatten_cons]
    simp [List.append_assoc]
  have htF1 : (PieceTable.text
      { pieces := f1 ++ { pk with len_bytes := pk.len_bytes + txt.length
                                  len_chars := pk.len_chars + count_chars txt } :: f2
        buffers := appendAdd F.buffers txt
        len_bytes := F.len_bytes + txt.length
        len_chars := F.len_chars + count_chars txt
        len_lines := F.len_lines + (line_breaks txt F.buffers.add.content.length).2
        ci := true
        last_insert := some (e + count_chars txt, k) }) =
      ((f1.map (pieceText F.buffers)).flatten ++ pieceText F.buffers pk) ++
        (txt ++ (f2.map (pieceText F.buffers)).flatten) := by
    show ((f1 ++ _ :: f2).map (pieceText (appendAdd F.buffers txt))).flatten = _
    rw [List.map_append, List.map_cons, List.flatten_append, List.flatten_cons]
    rw [hmapf1, hmapf2, hextTxt]
    simp [List.append_assoc]
  have hAFc : count_chars ((f1.map (pieceText F.buffers)).flatten ++
      pieceText F.buffers pk) = e := by
    rw [count_chars_append,
      count_chars_flatten_pieces F.buffers f1 (fun q hq => hinv.vF.chars q (hfmem1 q hq)),
      hinv.vF.chars pk hfmemp]
    rw [sumCharsOf_append, sumCharsOf_cons] at hfsum
    have hnil : sumCharsOf ([] : List Piece) = 0 := rfl
    rw [hnil] at hfsum
    omega
  have hBFb : boundaryStart ((f2.map (pieceText F.buffers)).flatten) = true :=
    boundaryStart_flatten_pieces F.buffers f2 fun q hq => hinv.vF.bnd q (hfmem2 q hq)
  rcases hbr with ⟨h0, hpos, hpn⟩ | ⟨h0, h1, hpos, hpn⟩ | ⟨h0, h1, hpos, hpn⟩
  · -- prepend branch: the new piece goes right before the located piece
    subst hpn
    have htS : S.text = (l1.map (pieceText S.buffers)).flatten ++
        (pieceText S.buffers p ++ (l2.map (pieceText S.buffers)).flatten) := by
      show (S.pieces.map (pieceText S.buffers)).flatten = _
      rw [hdec, List.map_append, List.map_cons, List.flatten_append, List.flatten_cons]
    have htS1eq : S1.text = (l1.map (pieceText S.buffers)).flatten ++
        (txt ++ (pieceText S.buffers p ++ (l2.map (pieceText S.buffers)).flatten)) := by
      rw [hS1]
      show ((l1 ++ newAddPiece S.buffers txt :: p :: l2).map
        (pieceText (appendAdd S.buffers txt))).flatten = _
      rw [List.map_append, List.map_cons, List.map_cons, List.flatten_append,
        List.flatten_cons, List.flatten_cons]
      rw [hmapl1, hmapl2, hmapp, pieceText_newAddPiece]
    have hASc : count_chars ((l1.map (pieceText S.buffers)).flatten) = e := by
      rw [count_chars_flatten_pieces S.buffers l1 fun q hq => hinv.vS.chars q (hmem1 q hq)]
      omega
    have hBSb : boundaryStart (pieceText S.buffers p ++
        (l2.map (pieceText S.buffers)).flatten) = true :=
      boundaryStart_append _ _ (hinv.vS.bnd p hmemp)
        (boundaryStart_flatten_pieces _ _ fun q hq => hinv.vS.bnd q (hmem2 q hq))
    have heq0 : (l1.map (pieceText S.buffers)).flatten ++
        (pieceText S.buffers p ++ (l2.map (pieceText S.buffers)).flatten) =
        ((f1.map (pieceText F.buffers)).flatten ++ pieceText F.buffers pk) ++
        (f2.map (pieceText F.buffers)).flatten := by
      rw [← htS, ← htF]
      exact hinv.texteq
    have hup := splice_unique _ _ _ _ heq0 (hASc.trans hAFc.symm) hBSb hBFb
    refine ⟨?_, hvF1, ?_, rfl, ?_, rfl, ?_, ?_, ?_, ?_, ?_⟩
    · rw [hS1]
      exact valid_slow_result S txt l1 p l2 rci pos _ _ _ false none hinv.vS hb hdec hr
        (Or.inl ⟨h0, hpos, rfl⟩)
    · rw [hS1]
    · rw [hS1]
    · rw [hS1]
      show appendAdd S.buffers txt = appendAdd F.buffers txt
      rw [hinv.bufs]
    · rw [htS1eq, htF1, hup.1, hup.2]
    · refine ⟨f1, _, f2, rfl, hfk, hfbuf, ?_, ?_⟩
      · show pk.start + (pk.len_bytes + txt.length) =
          (F.buffers.add.content ++ txt).length
        rw [List.length_append]
        omega
      · rw [sumCharsOf_append, sumCharsOf_cons] at hfsum ⊢
        have hnil : sumCharsOf ([] : List Piece) = 0 := rfl
        rw [hnil] at hfsum ⊢
        show sumCharsOf f1 + (pk.len_chars + count_chars txt + 0) = e + count_chars txt
        omega
    · refine ⟨l1 ++ [newAddPiece S.buffers txt], p :: l2, ?_, ?_⟩
      · rw [hS1]
        show l1 ++ newAddPiece S.buffers txt :: p :: l2 = _
        simp
      · rw [sumCharsOf_append, sumCharsOf_cons]
        have hnil : sumCharsOf ([] : List Piece) = 0 := rfl
        rw [hnil]
        show sumCharsOf l1 + (count_chars txt + 0) = e + count_chars txt
        omega
    · have e1 : S1.pieces.length = S.pieces.length + 1 := by
        rw [hS1, hdec]
        show (l1 ++ newAddPiece S.buffers txt :: p :: l2).length =
          (l1 ++ p :: l2).length + 1
        simp
        omega
      have e2 := hinv.cnt
      show S1.pieces.length = (f1 ++ _ :: f2).length + (m + 1)
      rw [e1]
      have e3 : (f1 ++ (⟨pk.buffer, pk.start, pk.first_line_break,
          pk.len_bytes + txt.length, pk.len_chars + count_chars txt⟩ : Piece) :: f2).length =
          F.pieces.length := by
        rw [hfdec]
        simp
      rw [e3]
      omega
  · -- append branch: the new piece goes right after the located piece
    subst hpn
    have htS : S.text = ((l1.map (pieceText S.buffers)).flatten ++ pieceText S.buffers p) ++
        (l2.map (pieceText S.buffers)).flatten := by
      show (S.pieces.map (pieceText S.buffers)).flatten = _
      rw [hdec, List.map_append, List.map_cons, List.flatten_append, List.flatten_cons]
      simp [List.append_assoc]
    have htS1eq : S1.text = ((l1.map (pieceText S.buffers)).flatten ++ pieceText S.buffers p) ++
        (txt ++ (l2.map (pieceText S.buffers)).flatten) := by
      rw [hS1]
      show ((l1 ++ p :: newAddPiece S.buffers txt :: l2).map
        (pieceText (appendAdd S.buffers txt))).flatten = _
      rw [List.map_append, List.map_cons, List.map_cons, List.flatten_append,
        List.flatten_cons, List.flatten_cons]
      rw [hmapl1, hmapl2, hmapp, pieceText_newAddPiece]
      simp [List.append_assoc]
    have hASc : count_chars ((l1.map (pieceText S.buffers)).flatten ++
        pieceText S.buffers p) = e := by
      rw [count_chars_append,
        count_chars_flatten_pieces S.buffers l1 fun q hq => hinv.vS.chars q (hmem1 q hq),
        hinv.vS.chars p hmemp]
      omega
    have hBSb : boundaryStart ((l2.map (pieceText S.buffers)).flatten) = true :=
      boundaryStart_flatten_pieces _ _ fun q hq => hinv.vS.bnd q (hmem2 q hq)
    have heq0 : ((l1.map (pieceText S.buffers)).flatten ++ pieceText S.buffers p) ++
        (l2.map (pieceText S.buffers)).flatten =
        ((f1.map (pieceText F.buffers)).flatten ++ pieceText F.buffers pk) ++
        (f2.map (pieceText F.buffers)).flatten := by
      rw [← htS, ← htF]
      exact hinv.texteq
    have hup := splice_unique _ _ _ _ heq0 (hASc.trans hAFc.symm) hBSb hBFb
    refine ⟨?_, hvF1, ?_, rfl, ?_, rfl, ?_, ?_, ?_, ?_, ?_⟩
    · rw [hS1]
      exact valid_slow_result S txt l1 p l2 rci pos _ _ _ false none hinv.vS hb hdec hr
        (Or.inr (Or.inl ⟨h0, h1, hpos, rfl⟩))
    · rw [hS1]
    · rw [hS1]
    · rw [hS1]
      show appendAdd S.buffers txt = appendAdd F.buffers txt
      rw [hinv.bufs]
    · rw [htS1eq, htF1, hup.1, hup.2]
    · refine ⟨f1, _, f2, rfl, hfk, hfbuf, ?_, ?_⟩
      · show pk.start + (pk.len_bytes + txt.length) =
          (F.buffers.add.content ++ txt).length
        rw [List.length_append]
        omega
      · rw [sumCharsOf_append, sumCharsOf_cons] at hfsum ⊢
        have hnil : sumCharsOf ([] : List Piece) = 0 := rfl
        rw [hnil] at hfsum ⊢
        show sumCharsOf f1 + (pk.len_chars + count_chars txt + 0) = e + count_chars txt
        omega
    · refine ⟨l1 ++ [p, newAddPiece S.buffers txt], l2, ?_, ?_⟩
      · rw [hS1]
        show l1 ++ p :: newAddPiece S.buffers txt :: l2 = _
        simp
      · rw [sumCharsOf_append, sumCharsOf_cons, sumCharsOf_cons]
        have hnil : sumCharsOf ([] : List Piece) = 0 := rfl
        rw [hnil]
        show sumCharsOf l1 + (p.len_chars + (count_chars txt + 0)) = e + count_chars txt
        omega
    · have e1 : S1.pieces.length = S.pieces.length + 1 := by
        rw [hS1, hdec]
        show (l1 ++ p :: newAddPiece S.buffers txt :: l2).length =
          (l1 ++ p :: l2).length + 1
        simp
        omega
      have e2 := hinv.cnt
      show S1.pieces.length = (f1 ++ _ :: f2).length + (m + 1)
      rw [e1]
      have e3 : (f1 ++ (⟨pk.buffer, pk.start, pk.first_line_break,
          pk.len_bytes + txt.length, pk.len_chars + count_chars txt⟩ : Piece) :: f2).length =
          F.pieces.length := by
        rw [hfdec]
        simp
      rw [e3]
      omega
  · -- split branch is impossible at a piece boundary
    exfalso
    omega


theorem valid_new (c : Bool) (s : Str) (hs : boundaryStart s = true) :
    Valid (PieceTable.new c s) := by
  have htext : pieceText (PieceTable.new c s).buffers
      { buffer := BufferType.original
        start := 0
        first_line_break := if (Buffers.from_initial s).original.line_breaks.isEmpty
          then none else some 0
        len_bytes := s.length
        len_chars := count_chars s } = s := by
    show sliceRange s 0 (0 + s.length) = s
    simp [sliceRange]
  refine ⟨?_, ?_, ?_, ?_⟩
  · show sumCharsOf [_] = count_chars s
    rw [sumCharsOf_cons]
    show count_chars s + sumCharsOf [] = _
    have hnil : sumCharsOf ([] : List Piece) = 0 := rfl
    rw [hnil]
    omega
  · intro p hp
    simp only [PieceTable.new, List.mem_singleton] at hp
    subst hp
    show 0 + s.length ≤ s.length
    omega
  · intro p hp
    simp only [PieceTable.new, List.mem_singleton] at hp
    subst hp
    rw [htext]
  · intro p hp
    simp only [PieceTable.new, List.mem_singleton] at hp
    subst hp
    rw [htext]
    exact hs

theorem runInserts_sim (texts : List Str) :
    ∀ (e k m : Nat) (S F Sfin : PieceTable),
      SimInv e k m S F → (∀ x ∈ texts, boundaryStart x = true) →
      runInserts S e texts = .ok Sfin →
      ∃ Ffin, runInserts F e texts = .ok Ffin ∧ Ffin.text = Sfin.text ∧
        Sfin.pieces.length = Ffin.pieces.length + (m + texts.length) := by
  induction texts with
  | nil =>
    intro e k m S F Sfin hinv hb h
    simp only [runInserts] at h
    have hS : S = Sfin := Except.ok.inj h
    subst hS
    exact ⟨F, rfl, hinv.texteq.symm, by have := hinv.cnt; simp; omega⟩
  | cons t0 rest ih =>
    intro e k m S F Sfin hinv hb h
    cases hstep : S.insert e t0 with
    | error err =>
      simp only [runInserts, hstep] at h
      exact Except.noConfusion h
    | ok S1 =>
      simp only [runInserts, hstep] at h
      obtain ⟨F1, hF1, hinv1⟩ := step_sim e k m S F S1 t0 hinv (hb t0 (by simp)) hstep
      obtain ⟨Ffin, hFrun, htxt, hcnt⟩ := ih (e + count_chars t0) k (m + 1) S1 F1 Sfin
        hinv1 (fun x hx => hb x (by simp [hx])) h
      refine ⟨Ffin, ?_, htxt, ?_⟩
      · simp only [runInserts, hF1]
        exact hFrun
      · simp only [List.length_cons]
        omega


/-- Claim C9: for every sequence of inserts in which each insert's position
equals the previous insert's end position, the text produced with the
contiguous-inserts fast path enabled equals the text produced without it,
and for every such non-trivial sequence (two or more inserts) the final
piece count with the fast path is strictly smaller. -/
theorem contiguous_inserts_equiv (s : Str) (i0 : Nat) (texts : List Str) (S : PieceTable)
    (hs : boundaryStart s = true)
    (htxts : ∀ x ∈ texts, boundaryStart x = true)
    (hS : runInserts (PieceTable.new false s) i0 texts = .ok S) :
    ∃ F, runInserts (PieceTable.new true s) i0 texts = .ok F ∧
      F.text = S.text ∧
      (2 ≤ texts.length → F.pieces.length < S.pieces.length) := by
  cases texts with
  | nil =>
    simp only [runInserts] at hS
    have h0 : PieceTable.new false s = S := Except.ok.inj hS
    refine ⟨PieceTable.new true s, rfl, ?_, by simp⟩
    rw [← h0]
    rfl
  | cons t0 rest =>
    cases hstep : (PieceTable.new false s).insert i0 t0 with
    | error err =>
      simp only [runInserts, hstep] at hS
      exact Except.noConfusion hS
    | ok S1 =>
      simp only [runInserts, hstep] at hS
      have hbt0 : boundaryStart t0 = true := htxts t0 (by simp)
      obtain ⟨l1, p, l2, rci, pos, PN, hdec, hsum, hr, hbr, hS1, hrun⟩ :=
        insert_slow_spec _ i0 t0 S1 rfl rfl hstep
      have hF1 := hrun true
      have hnew : ({ PieceTable.new false s with ci := true } : PieceTable) =
          PieceTable.new true s := rfl
      rw [hnew] at hF1
      have hvS0 : Valid (PieceTable.new false s) := valid_new false s hs
      have hinv1 : SimInv (i0 + count_chars t0) pos 0 S1
          { pieces := PN
            buffers := appendAdd (PieceTable.new false s).buffers t0
            len_bytes := (PieceTable.new false s).len_bytes + t0.length
            len_chars := (PieceTable.new false s).len_chars + count_chars t0
            len_lines := (PieceTable.new false s).len_lines +
              (line_breaks t0 (PieceTable.new false s).buffers.add.content.length).2
            ci := true
            last_insert := if true then some (i0 + count_chars t0, pos) else none } := by
        refine ⟨?_, ?_, ?_, rfl, ?_, rfl, ?_, ?_, ?_, ?_, ?_⟩
        · rw [hS1]
          exact valid_slow_result _ t0 l1 p l2 rci pos PN _ _ _ _ hvS0 hbt0 hdec hr hbr
        · exact valid_slow_result _ t0 l1 p l2 rci pos PN _ _ _ _ hvS0 hbt0 hdec hr hbr
        · rw [hS1]
        · rw [hS1]
        · rw [hS1]
        · rw [hS1]
          rfl
        · -- fdec
          rcases hbr with ⟨h0, hpos, hpn⟩ | ⟨h0, h1, hpos, hpn⟩ | ⟨h0, h1, hpos, hpn⟩
          · refine ⟨l1, newAddPiece (PieceTable.new false s).buffers t0, p :: l2, ?_, hpos, rfl, ?_, ?_⟩
            · rw [hpn]
            · show (PieceTable.new false s).buffers.add.content.length + t0.length =
                ((PieceTable.new false s).buffers.add.content ++ t0).length
              simp
            · rw [sumCharsOf_append, sumCharsOf_cons]
              have hnil : sumCharsOf ([] : List Piece) = 0 := rfl
              rw [hnil]
              show sumCharsOf l1 + (count_chars t0 + 0) = i0 + count_chars t0
              omega
          · refine ⟨l1 ++ [p], newAddPiece (PieceTable.new false s).buffers t0, l2, ?_, ?_, rfl, ?_, ?_⟩
            · rw [hpn]
              simp
            · rw [hpos]
              simp
            · show (PieceTable.new false s).buffers.add.content.length + t0.length =
                ((PieceTable.new false s).buffers.add.content ++ t0).length
              simp
            · rw [sumCharsOf_append, sumCharsOf_append, sumCharsOf_cons, sumCharsOf_cons]
              have hnil : sumCharsOf ([] : List Piece) = 0 := rfl
              rw [hnil]
              show sumCharsOf l1 + (p.len_chars + 0) + (count_chars t0 + 0) =
                i0 + count_chars t0
              omega
          · refine ⟨l1 ++ [beforePiece (PieceTable.new false s).buffers p rci],
              newAddPiece (PieceTable.new false s).buffers t0,
              afterPiece (PieceTable.new false s).buffers p rci :: l2, ?_, ?_, rfl, ?_, ?_⟩
            · rw [hpn]
              simp
            · rw [hpos]
              simp
            · show (PieceTable.new false s).buffers.add.content.length + t0.length =
                ((PieceTable.new false s).buffers.add.content ++ t0).length
              simp
            · rw [sumCharsOf_append, sumCharsOf_append, sumCharsOf_cons, sumCharsOf_cons]
              have hnil : sumCharsOf ([] : List Piece) = 0 := rfl
              rw [hnil]
              show sumCharsOf l1 + (rci + 0) + (count_chars t0 + 0) = i0 + count_chars t0
              omega
        · -- sdec
          rcases hbr with ⟨h0, hpos, hpn⟩ | ⟨h0, h1, hpos, hpn⟩ | ⟨h0, h1, hpos, hpn⟩
          · refine ⟨l1 ++ [newAddPiece (PieceTable.new false s).buffers t0], p :: l2, ?_, ?_⟩
            · rw [hS1, hpn]
              simp
            · rw [sumCharsOf_append, sumCharsOf_cons]
              have hnil : sumCharsOf ([] : List Piece) = 0 := rfl
              rw [hnil]
              show sumCharsOf l1 + (count_chars t0 + 0) = i0 + count_chars t0
              omega
          · refine ⟨l1 ++ [p, newAddPiece (PieceTable.new false s).buffers t0], l2, ?_, ?_⟩
            · rw [hS1, hpn]
              simp
            · rw [sumCharsOf_append, sumCharsOf_cons, sumCharsOf_cons]
              have hnil : sumCharsOf ([] : List Piece) = 0 := rfl
              rw [hnil]
              show sumCharsOf l1 + (p.len_chars + (count_chars t0 + 0)) =
                i0 + count_chars t0
              omega
          · refine ⟨l1 ++ [beforePiece (PieceTable.new false s).buffers p rci,
              newAddPiece (PieceTable.new false s).buffers t0],
              afterPiece (PieceTable.new false s).buffers p rci :: l2, ?_, ?_⟩
            · rw [hS1, hpn]
              simp
            · rw [sumCharsOf_append, sumCharsOf_cons, sumCharsOf_cons]
              have hnil : sumCharsOf ([] : List Piece) = 0 := rfl
              rw [hnil]
              show sumCharsOf l1 + (rci + (count_chars t0 + 0)) = i0 + count_chars t0
              omega
        · rw [hS1]
          simp
      obtain ⟨Ffin, hFrun, htxt, hcnt⟩ := runInserts_sim rest (i0 + count_chars t0) pos 0
        S1 _ S hinv1 (fun x hx => htxts x (by simp [hx])) hS
      refine ⟨Ffin, ?_, htxt, ?_⟩
      · simp only [runInserts, hF1]
        exact hFrun
      · intro hlen
        simp only [List.length_cons] at hlen
        omega


/-- Claim C7 (amended): when insert is called with a char index that exceeds
len_chars plus the inserted text's char count (and no fast path applies),
it panics with "index out of bounds", but the observable table state has
len_bytes and len_chars already incremented by the text's lengths; the
piece list, the buffers, len_lines and last_insert are unchanged. -/
theorem insert_oob_state (t : PieceTable) (i : Nat) (txt : Str)
    (hli : t.last_insert = none)
    (hoob : t.len_chars + count_chars txt < i) :
    t.insert i txt = .error (indexOutOfBoundsMsg,
      { t with len_chars := t.len_chars + count_chars txt
               len_bytes := t.len_bytes + txt.length }) := by
  have hpa : ∀ (cc : Bool) (li2 : Option (Nat × Nat)),
      PieceTable.piece_at_char
        { pieces := t.pieces
          buffers := t.buffers
          len_bytes := t.len_bytes + txt.length
          len_chars := t.len_chars + count_chars txt
          len_lines := t.len_lines
          ci := cc
          last_insert := li2 } i = .error indexOutOfBoundsMsg := by
    intro cc li2
    unfold PieceTable.piece_at_char
    rw [if_neg (by show ¬ i ≤ t.len_chars + count_chars txt; omega)]
  cases hc : t.ci
  · simp only [PieceTable.insert, hc, Bool.false_eq_true, if_false,
      PieceTable.insertSlow, hpa false t.last_insert]
  · simp only [PieceTable.insert, hc, if_true, hli, PieceTable.insertSlow, hpa true none]

/-- Claim C4 (amended): remove simplifies its bounds to a half-open pair
and returns with the table completely unchanged when start is at least
end; it does not clamp: whenever the simplified end bound exceeds
len_chars (with start below end), remove panics inside piece_at_char
instead of removing the in-bounds portion. -/
theorem remove_noop_or_panics (t : PieceTable) (r : RangeB) (s e : Nat)
    (hse : t.simplify_range_bounds r = (s, e)) :
    (s ≥ e → t.remove r = .ok t) ∧
    (s < e → t.len_chars < e → ∃ pmsg, t.remove r = .error pmsg) := by
  constructor
  · intro hge
    simp only [PieceTable.remove, hse]
    rw [if_pos hge]
  · intro hlt hoob
    simp only [PieceTable.remove, hse]
    rw [if_neg (by omega)]
    have hcore : ∀ t2 : PieceTable, t2.len_chars = t.len_chars → t2.pieces = t.pieces →
        ∃ pmsg, (match t2.piece_at_char s with
          | .error msg => .error (msg, t2)
          | .ok (start_piece_idx, start_char_idx) =>
            match t2.piece_at_char e with
            | .error msg => .error (msg, t2)
            | .ok (end_piece_idx, end_char_idx) =>
              if start_piece_idx = end_piece_idx then
                .ok (t2.remove_within_piece start_piece_idx start_char_idx end_char_idx)
              else
                .ok (((t2.trim_piece_start end_piece_idx end_char_idx).remove_pieces
                  (start_piece_idx + 1) end_piece_idx).trim_piece_end
                    start_piece_idx start_char_idx) :
          Except (String × PieceTable) PieceTable) = .error pmsg := by
      intro t2 hlc _hp
      have hpe : t2.piece_at_char e = .error indexOutOfBoundsMsg := by
        unfold PieceTable.piece_at_char
        rw [if_neg (by omega)]
      cases hps : t2.piece_at_char s with
      | error msg => exact ⟨(msg, t2), rfl⟩
      | ok pr =>
        obtain ⟨a, b⟩ := pr
        rw [hpe]
        exact ⟨(indexOutOfBoundsMsg, t2), rfl⟩
    refine hcore _ ?_ ?_
    · cases hli : t.last_insert with
      | none => rfl
      | some pr =>
        obtain ⟨li, pc⟩ := pr
        by_cases hge2 : li ≥ s
        · simp [hge2]
        · simp [hge2]
    · cases hli : t.last_insert with
      | none => rfl
      | some pr =>
        obtain ⟨li, pc⟩ := pr
        by_cases hge2 : li ≥ s
        · simp [hge2]
        · simp [hge2]

/-- Claim C10: removing the entire char range of a freshly created table
takes the whole-piece branch of remove_within_piece and leaves the piece
list empty; a subsequent insert at position 0 then reaches the
unreachable branch at the end of piece_at_char and panics, even though
char index 0 satisfies the documented precondition. -/
theorem remove_all_then_insert_unreachable (c : Bool) (s txt : Str)
    (hpos : 0 < count_chars s) :
    ∃ t', (PieceTable.new c s).remove
        ⟨Bound.included 0, Bound.excluded (count_chars s)⟩ = .ok t' ∧
      t'.pieces = [] ∧
      ∃ u, t'.insert 0 txt = .error (unreachableMsg, u) := by
  have hp0 : (PieceTable.new c s).piece_at_char 0 = .ok (0, 0) := by
    simp [PieceTable.piece_at_char, PieceTable.new, piece_at_char_go]
  have hpe : (PieceTable.new c s).piece_at_char (count_chars s) = .ok (0, count_chars s) := by
    simp [PieceTable.piece_at_char, PieceTable.new, piece_at_char_go]
  have hrm : (PieceTable.new c s).remove
      ⟨Bound.included 0, Bound.excluded (count_chars s)⟩ = .ok
      { pieces := []
        buffers := Buffers.from_initial s
        len_bytes := s.length - s.length
        len_chars := count_chars s - count_chars s
        len_lines := (line_breaks s 0).1.length + 1
        ci := c
        last_insert := none } := by
    simp only [PieceTable.remove, PieceTable.simplify_range_bounds]
    rw [if_neg (by show ¬ 0 ≥ count_chars s; omega)]
    have hlin : (PieceTable.new c s).last_insert = none := rfl
    simp only [hlin, hp0, hpe, if_pos rfl]
    simp [PieceTable.remove_within_piece, PieceTable.new, Buffers.from_initial, sliceRange]
  refine ⟨_, hrm, rfl, ?_⟩
  have hpa : PieceTable.piece_at_char
      { pieces := ([] : List Piece)
        buffers := Buffers.from_initial s
        len_bytes := s.length - s.length + txt.length
        len_chars := count_chars s - count_chars s + count_chars txt
        len_lines := (line_breaks s 0).1.length + 1
        ci := c
        last_insert := none } 0 = .error unreachableMsg := by
    unfold PieceTable.piece_at_char
    rw [if_pos (Nat.zero_le _)]
    rfl
  cases c
  · refine ⟨⟨[], Buffers.from_initial s, s.length - s.length + txt.length,
      count_chars s - count_chars s + count_chars txt,
      (line_breaks s 0).1.length + 1, false, none⟩, ?_⟩
    simp only [PieceTable.insert, Bool.false_eq_true, if_false, PieceTable.insertSlow, hpa]
  · refine ⟨⟨[], Buffers.from_initial s, s.length - s.length + txt.length,
      count_chars s - count_chars s + count_chars txt,
      (line_breaks s 0).1.length + 1, true, none⟩, ?_⟩
    simp only [PieceTable.insert, if_true, PieceTable.insertSlow, hpa]

/-- Claim C1: on the failing input new("abcd") followed by remove(1..3),
the split branch of remove_within_piece keeps exactly the removed byte
range as the piece's new extent and leaves the aggregates untouched, so
text() becomes "bc" with len_bytes and len_chars still 4 — instead of the
claim's two sibling pieces yielding "ad" with the lengths decreased by 2. -/
theorem remove_within_piece_keeps_removed_range :
    ((PieceTable.new false [97, 98, 99, 100]).remove
      ⟨Bound.included 1, Bound.excluded 3⟩).map
        (fun u => (u.text, u.len_bytes, u.len_chars, u.pieces.map Piece.len_bytes)) =
    .ok ([98, 99], 4, 4, [2]) := by
  rfl

/-- Claim C2: after the legal operation sequence new("abcd"); remove(1..3),
len_bytes() is 4 while text() has length 2 and len_chars() is 4 while
text() has 2 chars, violating the claimed invariant; the concatenation of
iter() still equals text(). -/
theorem text_length_invariant_violated :
    ((PieceTable.new false [97, 98, 99, 100]).remove
      ⟨Bound.included 1, Bound.excluded 3⟩).map
        (fun u => (u.len_bytes, u.text.length, u.len_chars, count_chars u.text,
          u.iter.flatten, u.text)) =
    .ok (4, 2, 4, 2, [98, 99], [98, 99]) := by
  rfl

/-- Claim C3: after new("ab\ncd"); insert(1, "x"), the before piece keeps
first_line_break = some 0 although registry entry 0 has byte offset 2,
outside its byte range 0..1 (the claim requires None), and the after piece
gets first_line_break = some 2 — the found entry's byte offset — although
the smallest registry index whose offset lies in its range 1..5 is 0. -/
theorem first_line_break_invariant_violated :
    ((PieceTable.new false [97, 98, 10, 99, 100]).insert 1 [120]).map
      (fun u => (u.pieces.map Piece.first_line_break, u.pieces.map Piece.start,
        u.pieces.map Piece.len_bytes, u.buffers.original.line_breaks)) =
    .ok ([some 0, none, some 2], [0, 0, 1], [1, 1, 4], [(2, Break.lf)]) := by
  rfl

/-- Claim C4 counterexample: on new("ab"), remove(0..5) does not clamp the
end bound to len_chars = 2 and remove the in-bounds portion; it panics
with "index out of bounds", leaving the table as last observed. -/
theorem remove_does_not_clamp_counterexample :
    (PieceTable.new false [97, 98]).remove ⟨Bound.included 0, Bound.excluded 5⟩ =
      .error (indexOutOfBoundsMsg, PieceTable.new false [97, 98]) := by
  rfl

/-- Claim C4 witness: the amended theorem applied at new("01") with the
empty range 5..0 (a no-op) and at new("ab") with the overlong range 0..5
(a panic). -/
theorem remove_noop_or_panics_witness :
    (PieceTable.new false [48, 49]).remove ⟨Bound.included 5, Bound.excluded 0⟩ =
      .ok (PieceTable.new false [48, 49]) ∧
    ∃ pmsg, (PieceTable.new false [97, 98]).remove
      ⟨Bound.included 0, Bound.excluded 5⟩ = .error pmsg := by
  constructor
  · exact (remove_noop_or_panics (PieceTable.new false [48, 49])
      ⟨Bound.included 5, Bound.excluded 0⟩ 5 0 rfl).1 (by decide)
  · exact (remove_noop_or_panics (PieceTable.new false [97, 98])
      ⟨Bound.included 0, Bound.excluded 5⟩ 0 5 rfl).2 (by decide) (by decide)

/-- Claim C5: removing the whole char range of new("a\nb") yields empty
text and zero byte/char counts, but len_lines() remains 2 instead of the
claimed 1: the whole-piece branch of remove_within_piece never updates
len_lines. -/
theorem remove_everything_stale_len_lines :
    ((PieceTable.new false [97, 10, 98]).remove
      ⟨Bound.included 0, Bound.excluded 3⟩).map
        (fun u => (u.text, u.len_bytes, u.len_chars, u.len_lines)) =
    .ok ([], 0, 0, 2) := by
  rfl

/-- Claim C6: in base mode the scanner, run on the single byte 0x0D (a CR
not followed by LF), appends no registry entry yet returns the count 1, so
the returned count differs from the number of appended entries and a lone
CR is not ignored by the counter. -/
theorem line_breaks_lone_cr_miscount :
    line_breaks [0x0D] 0 = ([], 1) := by
  rfl

/-- Claim C7 counterexample: new("ab") has len_chars 2; insert(6, "xyz")
panics with "index out of bounds", but the observable state already has
len_chars = 5 and len_bytes = 5 — the aggregates were mutated before the
panic check fired, contradicting the claim that nothing is mutated. -/
theorem insert_oob_mutation_counterexample :
    ((PieceTable.new false [97, 98]).insert 6 [120, 121, 122]).mapError
      (fun p => (p.1, p.2.len_chars, p.2.len_bytes)) =
    .error (indexOutOfBoundsMsg, 5, 5) := by
  rfl

/-- Claim C7 witness: the amended theorem applied at new("ab") with
insert(6, "xyz"). -/
theorem insert_oob_state_witness :
    (PieceTable.new false [97, 98]).insert 6 [120, 121, 122] =
      .error (indexOutOfBoundsMsg,
        { PieceTable.new false [97, 98] with
          len_chars := (PieceTable.new false [97, 98]).len_chars +
            count_chars [120, 121, 122]
          len_bytes := (PieceTable.new false [97, 98]).len_bytes +
            [120, 121, 122].length }) :=
  insert_oob_state (PieceTable.new false [97, 98]) 6 [120, 121, 122] rfl (by decide)

/-- Claim C8: on new("é\r\nx") — bytes [C3, A9, 0D, 0A, 78] — the char
index 2 maps to byte offset 3, which lies between the CR and the LF, so
the claim requires a panic; the code instead checks the bytes at the char
index, does not panic, and splits the CRLF pair across pieces: the first
chunk ends with 0x0D and the last chunk starts with 0x0A. -/
theorem crlf_assert_misses_multibyte_split :
    ((PieceTable.new false [195, 169, 13, 10, 120]).insert 2 [122]).map
      (fun u => u.iter) = .ok [[195, 169, 13], [122], [10, 120]] := by
  rfl

set_option maxHeartbeats 2000000 in
/-- Claim C9 witness: scenario S5 — new("ag") with the contiguous inserts
"b","c","d","e","f" starting at position 1: the slow run yields 7 pieces,
the fast run 3, and both texts are "abcdefg". -/
theorem contiguous_inserts_equiv_witness :
    (∀ x ∈ ([[98], [99], [100], [101], [102]] : List Str), boundaryStart x = true) ∧
    ∃ S, runInserts (PieceTable.new false [97, 103]) 1
        [[98], [99], [100], [101], [102]] = .ok S ∧
      S.pieces.length = 7 ∧ S.text = [97, 98, 99, 100, 101, 102, 103] ∧
      ∃ F, runInserts (PieceTable.new true [97, 103]) 1
          [[98], [99], [100], [101], [102]] = .ok F ∧
        F.text = S.text ∧
        (2 ≤ ([[98], [99], [100], [101], [102]] : List Str).length →
          F.pieces.length < S.pieces.length) ∧
        F.pieces.length = 3 := by
  refine ⟨by decide, _, rfl, by rfl, by rfl, ?_⟩
  obtain ⟨F, hF, htxt, hcnt⟩ := contiguous_inserts_equiv [97, 103] 1
    [[98], [99], [100], [101], [102]] _ (by decide) (by decide) rfl
  refine ⟨F, hF, htxt, hcnt, ?_⟩
  have h16 := congrArg (Except.map fun u : PieceTable => u.pieces.length) hF
  have h17 : (Except.ok 3 : Except (String × PieceTable) Nat) =
      (runInserts (PieceTable.new true [97, 103]) 1
        [[98], [99], [100], [101], [102]]).map
          (fun u : PieceTable => u.pieces.length) := by rfl
  exact (Except.ok.inj ((h17.trans h16))).symm

/-- Claim C10 witness: the theorem applied at new("a") (one char), removing
0..1 and then inserting "b" at 0. -/
theorem remove_all_then_insert_unreachable_witness :
    0 < count_chars [97] ∧
    ∃ t', (PieceTable.new false [97]).remove
        ⟨Bound.included 0, Bound.excluded (count_chars [97])⟩ = .ok t' ∧
      t'.pieces = [] ∧
      ∃ u, t'.insert 0 [98] = .error (unreachableMsg, u) :=
  ⟨by decide, remove_all_then_insert_unreachable false [97] [98] (by decide)⟩
